import Mathlib

/-!
Verification development for the archive engine of penwern/curate-preservation-core
(pkg/utils/archive.go).

Modelling conventions:
* Go strings (paths, entry names) are lists of characters; file bytes are lists of
  naturals.
* The Go standard library path functions that archive.go calls (path/filepath's
  Clean, Join, Base, Ext, Dir on Unix, strings.HasPrefix/HasSuffix/TrimSuffix) are
  translated from their Go sources, with the path separator fixed to '/'.
* File system effects are recorded as a list of write actions; a `FsWrite.mkDir`
  records an ensure-directory-exists call (os.Mkdir tolerating os.IsExist, the
  stat-then-Mkdir pattern, or utils.CreateDir), `FsWrite.file` records creating a
  file with the given byte content.
* Cooperative cancellation (context.Context) is modelled by an optional poll index
  from which on the context reports Done: polls are numbered in program order and
  poll i observes cancellation iff the index k with cancelAt = some k satisfies
  k ≤ i.  This encodes that once the signal fires it stays fired.
-/

/-- Go strings are byte strings; this development models them as lists of characters. -/
abbrev GoStr := List Char

/-- Unix os.IsPathSeparator: only '/' separates path elements. -/
def isSep (c : Char) : Bool := c == '/'

/-- Backtracking step of filepath.Clean's lazybuf for a ".." element: the Go loop
is `out.w--; for out.w > dotdot && !os.IsPathSeparator(out.index(out.w)) { out.w-- }`.
The buffer is kept reversed (most recently written character first), so decrementing
the write index is dropping the head.  `dropElem` receives the buffer after the
unconditional first decrement has dropped one character `c`, and keeps dropping
while the watermark `dd` allows and the dropped character was not a separator. -/
def dropElem (dd : Nat) : GoStr → GoStr
  | [] => []
  | c :: rest => if dd < rest.length ∧ isSep c = false then dropElem dd rest else rest

/-- Main loop of Go's filepath.Clean (path/filepath/path.go), Unix rules.
`rooted` is whether the original path began with a separator, the buffer `out` is
kept reversed, and `dd` is the dotdot watermark.  Each iteration consumes the next
input character(s) exactly as the Go `for r < n` loop does: a separator is skipped;
a "." element is skipped; a ".." element either backtracks the buffer, is dropped
(rooted at the root), or is appended and raises the watermark; any other element is
copied, preceded by a separator when the buffer is not at its start.  The first
argument is structural-recursion fuel; every iteration consumes at least one input
character, so any fuel of at least the input length runs the loop to completion
(the fuel-exhausted branch is unreachable then), and `filepathClean` supplies
exactly the input length. -/
def cleanLoop (rooted : Bool) : Nat → GoStr → GoStr → Nat → GoStr
  | _, [], out, _ => out
  | 0, _, out, _ => out
  | n + 1, c :: cs, out, dd =>
    if isSep c then cleanLoop rooted n cs out dd
    else if c = '.' ∧ (cs = [] ∨ isSep (cs.headD 'x') = true) then
      cleanLoop rooted n cs out dd
    else if c = '.' ∧ cs.headD 'x' = '.' ∧ (cs.tail = [] ∨ isSep (cs.tail.headD 'x') = true) then
      (if dd < out.length then cleanLoop rooted n cs.tail (dropElem dd out) dd
       else if rooted then cleanLoop rooted n cs.tail out dd
       else
         let out2 : GoStr := '.' :: '.' :: (if out.length ≠ 0 then '/' :: out else out)
         cleanLoop rooted n cs.tail out2 out2.length)
    else
      let elem : GoStr := c :: cs.takeWhile (fun x => !(isSep x))
      let rest : GoStr := cs.dropWhile (fun x => !(isSep x))
      let out2 : GoStr :=
        if (rooted = true ∧ out.length ≠ 1) ∨ (rooted = false ∧ out.length ≠ 0)
        then '/' :: out else out
      cleanLoop rooted n rest (elem.reverse ++ out2) dd

/-- Go filepath.Clean on Unix.  An empty path cleans to ".".  Otherwise the loop
runs over the whole input (Go starts reading at index 1 when rooted, but index 0
then holds a separator which the loop's first case skips, so running from index 0
is the same), the buffer being seeded with "/" and watermark 1 when rooted.  An
empty buffer renders as ".". -/
def filepathClean (p : GoStr) : GoStr :=
  if p = [] then ['.']
  else
    let rooted := isSep (p.headD 'x')
    let out := cleanLoop rooted p.length p (if rooted then ['/'] else []) (if rooted then 1 else 0)
    if out = [] then ['.'] else out.reverse

/-! Segment-level restatement of filepath.Clean, used to reason about it.
The equivalence with the character loop above is proved in cleanLoop_spec /
filepathClean_eq_specClean below. -/

/-- Segments of a path: maximal runs of non-separator characters, in order.
Fuel-structured like cleanLoop; fuel of at least the input length is enough. -/
def segsF : Nat → GoStr → List GoStr
  | _, [] => []
  | 0, _ => []
  | n + 1, c :: cs =>
    if isSep c then segsF n cs
    else (c :: cs.takeWhile (fun x => !(isSep x))) :: segsF n (cs.dropWhile (fun x => !(isSep x)))

/-- Segments of a path with the canonical fuel. -/
def segs (p : GoStr) : List GoStr := segsF p.length p

/-- A "." segment. -/
def dotSeg : GoStr := ['.']

/-- A ".." segment. -/
def dotdotSeg : GoStr := ['.', '.']

/-- Abstract state of the Clean loop: the number of leading ".." elements kept
(always 0 when rooted) and the stack of ordinary elements, most recent first. -/
def procSegs (rooted : Bool) : Nat → List GoStr → List GoStr → Nat × List GoStr
  | dots, reals, [] => (dots, reals)
  | dots, reals, s :: rest =>
    if s = dotSeg then procSegs rooted dots reals rest
    else if s = dotdotSeg then
      match reals with
      | _ :: rs => procSegs rooted dots rs rest
      | [] => if rooted then procSegs rooted dots [] rest else procSegs rooted (dots + 1) [] rest
    else procSegs rooted dots (s :: reals) rest

/-- Helper for rendering: prepend a separator to every item and concatenate. -/
def prependEach : List GoStr → GoStr
  | [] => []
  | s :: rest => '/' :: (s ++ prependEach rest)

/-- Render a list of path elements separated by '/'. -/
def renderItems : List GoStr → GoStr
  | [] => []
  | s :: rest => s ++ prependEach rest

/-- Render the abstract Clean state back into a path (without the final
empty-to-"." adjustment). -/
def renderState (rooted : Bool) (dots : Nat) (reals : List GoStr) : GoStr :=
  (if rooted then ['/'] else []) ++ renderItems (List.replicate dots dotdotSeg ++ reals.reverse)

/-- The dotdot watermark corresponding to an abstract state: the length of the
rendered prefix that a ".." element may not backtrack across. -/
def ddOf (rooted : Bool) (dots : Nat) : Nat :=
  if rooted then 1 else if dots = 0 then 0 else 3 * dots - 1

/-- A plain path element: nonempty and free of separators. -/
def Plain (s : GoStr) : Prop := s ≠ [] ∧ ∀ c ∈ s, isSep c = false

/-- A canonical path element: plain and neither "." nor "..". -/
def Canon (s : GoStr) : Prop := Plain s ∧ s ≠ dotSeg ∧ s ≠ dotdotSeg

/-- Segment-level restatement of filepathClean. -/
def specClean (p : GoStr) : GoStr :=
  if p = [] then ['.']
  else
    let rooted := isSep (p.headD 'x')
    let st := procSegs rooted 0 [] (segs p)
    let r := renderState rooted st.1 st.2
    if r = [] then ['.'] else r
/-- notSep c abbreviates the loop predicate. -/
theorem notSep_eq (c : Char) : (fun x => decide (isSep x = false)) c = !(isSep c) := by
  by_cases h : isSep c <;> simp [h]

theorem segsF_congr : ∀ n m (p : GoStr), p.length ≤ n → p.length ≤ m → segsF n p = segsF m p := by
  intro n
  induction n with
  | zero =>
    intro m p hn _
    have : p = [] := List.eq_nil_of_length_eq_zero (Nat.le_antisymm hn (Nat.zero_le _))
    subst this
    cases m <;> rfl
  | succ n ih =>
    intro m p hn hm
    cases p with
    | nil => cases m <;> rfl
    | cons c cs =>
      cases m with
      | zero => exact absurd hm (by simp)
      | succ m =>
        simp only [segsF]
        by_cases h : isSep c
        · rw [if_pos h, if_pos h]
          exact ih m cs (by simpa using hn) (by simpa using hm)
        · rw [if_neg h, if_neg h]
          have hd : (cs.dropWhile (fun x => !(isSep x))).length ≤ cs.length :=
            (List.dropWhile_sublist _).length_le
          rw [ih m _ (Nat.le_trans hd (by simpa using hn)) (Nat.le_trans hd (by simpa using hm))]

theorem segsF_eq_segs (n : Nat) (p : GoStr) (h : p.length ≤ n) : segsF n p = segs p :=
  segsF_congr n p.length p h (Nat.le_refl _)

theorem segs_nil : segs ([] : GoStr) = [] := rfl

theorem segs_cons_sep (c : Char) (cs : GoStr) (h : isSep c = true) : segs (c :: cs) = segs cs := by
  show segsF (cs.length + 1) (c :: cs) = segs cs
  simp only [segsF, h, if_pos]
  rfl

theorem segs_cons_elem (c : Char) (cs : GoStr) (h : ¬ isSep c = true) :
    segs (c :: cs) =
      (c :: cs.takeWhile (fun x => !(isSep x))) :: segs (cs.dropWhile (fun x => !(isSep x))) := by
  show segsF (cs.length + 1) (c :: cs) = _
  simp only [segsF, h]
  rw [if_neg (by simp), segsF_eq_segs _ _ (List.dropWhile_sublist _).length_le]

theorem takeWhile_append_sep : ∀ (xs ys : GoStr),
    (xs ++ '/' :: ys).takeWhile (fun x => !(isSep x)) = xs.takeWhile (fun x => !(isSep x)) := by
  intro xs ys
  induction xs with
  | nil => simp [List.takeWhile, isSep]
  | cons x xs ih => simp [List.takeWhile_cons, ih]

theorem dropWhile_append_sep : ∀ (xs ys : GoStr),
    (xs ++ '/' :: ys).dropWhile (fun x => !(isSep x)) =
      xs.dropWhile (fun x => !(isSep x)) ++ '/' :: ys := by
  intro xs ys
  induction xs with
  | nil => simp [List.dropWhile, isSep]
  | cons x xs ih =>
    by_cases h : isSep x = true
    · simp [List.dropWhile_cons, h]
    · simp [List.dropWhile_cons, h, ih]

theorem segs_append_sep : ∀ n (a b : GoStr), a.length ≤ n → segs (a ++ '/' :: b) = segs a ++ segs b := by
  intro n
  induction n with
  | zero =>
    intro a b ha
    have : a = [] := List.eq_nil_of_length_eq_zero (Nat.le_antisymm ha (Nat.zero_le _))
    subst this
    rw [List.nil_append, segs_cons_sep _ _ (by simp [isSep]), segs_nil, List.nil_append]
  | succ n ih =>
    intro a b ha
    cases a with
    | nil => rw [List.nil_append, segs_cons_sep _ _ (by simp [isSep]), segs_nil, List.nil_append]
    | cons c cs =>
      by_cases h : isSep c
      · rw [List.cons_append, segs_cons_sep _ _ h, segs_cons_sep _ _ h]
        exact ih cs b (by simpa using ha)
      · rw [List.cons_append, segs_cons_elem _ _ h, segs_cons_elem _ _ h,
            takeWhile_append_sep, dropWhile_append_sep]
        rw [ih _ b (Nat.le_trans (List.dropWhile_sublist _).length_le (by simpa using ha))]
        simp

/-- Appending a trailing separator never changes the segments. -/
theorem segs_append_slash (a : GoStr) : segs (a ++ ['/']) = segs a := by
  have := segs_append_sep a.length a [] (Nat.le_refl _)
  simpa [segs_nil] using this

theorem takeWhile_all_notSep (cs : GoStr) (h : ∀ c ∈ cs, isSep c = false) :
    cs.takeWhile (fun x => !(isSep x)) = cs := by
  induction cs with
  | nil => rfl
  | cons c cs ih =>
    have hc := h c (List.mem_cons_self c cs)
    have hrest := ih (fun x hx => h x (List.mem_cons_of_mem c hx))
    simp [List.takeWhile_cons, hc, hrest]

theorem dropWhile_all_notSep (cs : GoStr) (h : ∀ c ∈ cs, isSep c = false) :
    cs.dropWhile (fun x => !(isSep x)) = [] := by
  induction cs with
  | nil => rfl
  | cons c cs ih =>
    have hc := h c (List.mem_cons_self c cs)
    have hrest := ih (fun x hx => h x (List.mem_cons_of_mem c hx))
    simp [List.dropWhile_cons, hc, hrest]

theorem segs_single_plain (s : GoStr) (h : Plain s) : segs s = [s] := by
  obtain ⟨hne, hall⟩ := h
  cases s with
  | nil => exact absurd rfl hne
  | cons c cs =>
    have hc : ¬ isSep c = true := by simp [hall c (List.mem_cons_self c cs)]
    rw [segs_cons_elem _ _ hc,
        takeWhile_all_notSep cs (fun x hx => hall x (List.mem_cons_of_mem c hx)),
        dropWhile_all_notSep cs (fun x hx => hall x (List.mem_cons_of_mem c hx)), segs_nil]

theorem segs_plain : ∀ n (p : GoStr), p.length ≤ n → ∀ s ∈ segs p, Plain s := by
  intro n
  induction n with
  | zero =>
    intro p hp
    have : p = [] := List.eq_nil_of_length_eq_zero (Nat.le_antisymm hp (Nat.zero_le _))
    subst this
    simp [segs_nil]
  | succ n ih =>
    intro p hp s hs
    cases p with
    | nil => simp [segs_nil] at hs
    | cons c cs =>
      by_cases h : isSep c
      · rw [segs_cons_sep _ _ h] at hs
        exact ih cs (by simpa using hp) s hs
      · rw [segs_cons_elem _ _ h] at hs
        rcases List.mem_cons.mp hs with hs1 | hs1
        · subst hs1
          refine ⟨by simp, ?_⟩
          intro x hx
          rcases List.mem_cons.mp hx with hx1 | hx1
          · subst hx1
            simpa using h
          · have h2 := List.mem_takeWhile_imp hx1
            simpa using h2
        · exact ih _ (Nat.le_trans (List.dropWhile_sublist _).length_le (by simpa using hp)) s hs1

theorem prependEach_append (a b : List GoStr) :
    prependEach (a ++ b) = prependEach a ++ prependEach b := by
  induction a with
  | nil => rfl
  | cons x xs ih => simp [prependEach, ih]

theorem prependEach_cons_eq (x : GoStr) (xs : List GoStr) :
    prependEach (x :: xs) = '/' :: renderItems (x :: xs) := rfl

theorem renderItems_append_single (xs : List GoStr) (y : GoStr) :
    renderItems (xs ++ [y]) = if xs = [] then y else renderItems xs ++ '/' :: y := by
  cases xs with
  | nil => simp [renderItems, prependEach]
  | cons x xs =>
    simp only [List.cons_append, renderItems, prependEach_append, List.append_assoc,
      if_neg (List.cons_ne_nil x xs)]
    simp [prependEach]

theorem renderItems_eq_nil_iff (items : List GoStr) (h : ∀ i ∈ items, Plain i) :
    renderItems items = [] ↔ items = [] := by
  cases items with
  | nil => simp [renderItems]
  | cons x xs =>
    have hx : x ≠ [] := (h x (List.mem_cons_self x xs)).1
    simp only [renderItems]
    constructor
    · intro he
      exact absurd (List.append_eq_nil.mp he).1 hx
    · intro he
      exact absurd he (List.cons_ne_nil x xs)

/-- Plainness of the ".." element. -/
theorem plain_dotdotSeg : Plain dotdotSeg :=
  ⟨by decide, by decide⟩

/-- Pushing an element onto the abstract state appends it to the rendering,
preceded by a separator unless the rendering holds no items yet. -/
theorem renderState_cons (rooted : Bool) (dots : Nat) (r : GoStr) (reals : List GoStr) :
    renderState rooted dots (r :: reals) =
      renderState rooted dots reals ++ (if dots = 0 ∧ reals = [] then r else '/' :: r) := by
  by_cases h : dots = 0 ∧ reals = []
  · obtain ⟨h1, h2⟩ := h
    subst h1
    subst h2
    simp [renderState, renderItems, prependEach]
  · have hne : ¬ (List.replicate dots dotdotSeg ++ reals.reverse = []) := by
      intro he
      rcases List.append_eq_nil.mp he with ⟨h1, h2⟩
      exact h ⟨by simpa using h1, by simpa using h2⟩
    simp only [renderState, List.reverse_cons]
    rw [← List.append_assoc, renderItems_append_single, if_neg hne, if_neg h, List.append_assoc]

theorem length_prependEach_dots (k : Nat) :
    (prependEach (List.replicate k dotdotSeg)).length = 3 * k := by
  induction k with
  | zero => rfl
  | succ k ih =>
    simp only [List.replicate_succ, prependEach, List.length_cons, List.length_append, ih]
    simp only [dotdotSeg, List.length_cons, List.length_nil]
    omega

theorem length_renderItems_dots (k : Nat) :
    (renderItems (List.replicate k dotdotSeg)).length = if k = 0 then 0 else 3 * k - 1 := by
  cases k with
  | zero => rfl
  | succ k =>
    simp only [List.replicate_succ, renderItems, List.length_append, length_prependEach_dots]
    rw [if_neg (Nat.succ_ne_zero k)]
    simp only [dotdotSeg, List.length_cons, List.length_nil]
    omega

theorem length_renderState_nil (rooted : Bool) (dots : Nat) (hr : rooted = true → dots = 0) :
    (renderState rooted dots []).length = ddOf rooted dots := by
  cases rooted with
  | false =>
    have hs : renderState false dots [] = renderItems (List.replicate dots dotdotSeg) := by
      simp [renderState]
    rw [hs, length_renderItems_dots]
    simp [ddOf]
  | true =>
    have h0 := hr rfl
    subst h0
    simp [renderState, renderItems, ddOf]

theorem ddOf_le_length_renderState (rooted : Bool) (dots : Nat) (reals : List GoStr)
    (hr : rooted = true → dots = 0) :
    ddOf rooted dots ≤ (renderState rooted dots reals).length := by
  induction reals with
  | nil => rw [length_renderState_nil rooted dots hr]
  | cons r rs ih =>
    rw [renderState_cons, List.length_append]
    omega

theorem ddOf_lt_length_renderState (rooted : Bool) (dots : Nat) (r : GoStr) (reals : List GoStr)
    (hr : rooted = true → dots = 0) (hp : r ≠ []) :
    ddOf rooted dots < (renderState rooted dots (r :: reals)).length := by
  have h1 := ddOf_le_length_renderState rooted dots reals hr
  rw [renderState_cons, List.length_append]
  have h2 : 1 ≤ r.length := Nat.one_le_iff_ne_zero.mpr (by simpa using hp)
  by_cases h : dots = 0 ∧ reals = []
  · rw [if_pos h]
    omega
  · rw [if_neg h]
    simp only [List.length_cons]
    omega

theorem dropElem_append_sep (dd : Nat) (xs : GoStr) (hall : ∀ c ∈ xs, isSep c = false)
    (hne : xs ≠ []) : ∀ out : GoStr, dd ≤ out.length → dropElem dd (xs ++ '/' :: out) = out := by
  induction xs with
  | nil => exact absurd rfl hne
  | cons x xs ih =>
    intro out hout
    cases xs with
    | nil =>
      show dropElem dd (x :: '/' :: out) = out
      rw [dropElem, if_pos ⟨by simp only [List.length_cons]; omega,
            hall x (List.mem_cons_self x _)⟩]
      rw [dropElem, if_neg (by simp [isSep])]
    | cons y ys =>
      show dropElem dd (x :: (y :: ys ++ '/' :: out)) = out
      rw [dropElem, if_pos ⟨by simp only [List.length_append, List.length_cons]; omega,
            hall x (List.mem_cons_self x _)⟩]
      exact ih (fun c hc => hall c (List.mem_cons_of_mem x hc)) (List.cons_ne_nil y ys) out hout

theorem dropElem_zero_all_notSep (xs : GoStr) (h : ∀ c ∈ xs, isSep c = false) :
    dropElem 0 xs = [] := by
  induction xs with
  | nil => rfl
  | cons x xs ih =>
    cases xs with
    | nil => rw [dropElem, if_neg (by simp)]
    | cons y ys =>
      rw [dropElem, if_pos ⟨by simp, h x (List.mem_cons_self x _)⟩]
      exact ih (fun c hc => h c (List.mem_cons_of_mem x hc))

theorem dropElem_one_append_slash (xs : GoStr) (h : ∀ c ∈ xs, isSep c = false) (hne : xs ≠ []) :
    dropElem 1 (xs ++ ['/']) = ['/'] := by
  induction xs with
  | nil => exact absurd rfl hne
  | cons x xs ih =>
    cases xs with
    | nil =>
      show dropElem 1 (x :: ['/']) = ['/']
      rw [dropElem, if_neg (by simp)]
    | cons y ys =>
      show dropElem 1 (x :: (y :: ys ++ ['/'])) = ['/']
      rw [dropElem, if_pos ⟨by simp only [List.length_append, List.length_cons]; omega,
            h x (List.mem_cons_self x _)⟩]
      exact ih (fun c hc => h c (List.mem_cons_of_mem x hc)) (List.cons_ne_nil y ys)

/-- Effect of the ".." backtracking on a rendered state: it removes exactly the most
recently pushed element. -/
theorem dropElem_renderState (rooted : Bool) (dots : Nat) (r : GoStr) (reals : List GoStr)
    (hr : rooted = true → dots = 0) (hpr : Plain r) :
    dropElem (ddOf rooted dots) ((renderState rooted dots (r :: reals)).reverse) =
      (renderState rooted dots reals).reverse := by
  obtain ⟨hne, hall⟩ := hpr
  have hrall : ∀ c ∈ r.reverse, isSep c = false := fun c hc => hall c (List.mem_reverse.mp hc)
  have hrne : r.reverse ≠ [] := by simpa using hne
  rw [renderState_cons]
  by_cases h : dots = 0 ∧ reals = []
  · rw [if_pos h]
    obtain ⟨h1, h2⟩ := h
    subst h1
    subst h2
    cases rooted with
    | false =>
      have hrs : renderState false 0 [] = [] := by simp [renderState, renderItems]
      rw [hrs, List.nil_append, List.reverse_nil]
      exact dropElem_zero_all_notSep r.reverse hrall
    | true =>
      have hrs : renderState true 0 [] = ['/'] := by simp [renderState, renderItems]
      rw [hrs, List.reverse_append]
      exact dropElem_one_append_slash r.reverse hrall hrne
  · rw [if_neg h, List.reverse_append, List.reverse_cons, List.append_assoc]
    exact dropElem_append_sep _ r.reverse hrall hrne _
      (by show ddOf rooted dots ≤ (List.reverse (renderState rooted dots reals)).length
          rw [List.length_reverse]
          exact ddOf_le_length_renderState rooted dots reals hr)

theorem procSegs_nil (rooted : Bool) (dots : Nat) (reals : List GoStr) :
    procSegs rooted dots reals [] = (dots, reals) := rfl

theorem procSegs_cons_dot (rooted : Bool) (dots : Nat) (reals : List GoStr) (rest : List GoStr) :
    procSegs rooted dots reals (dotSeg :: rest) = procSegs rooted dots reals rest := by
  simp [procSegs]

theorem procSegs_cons_dotdot_pop (rooted : Bool) (dots : Nat) (r : GoStr) (rs : List GoStr)
    (rest : List GoStr) :
    procSegs rooted dots (r :: rs) (dotdotSeg :: rest) = procSegs rooted dots rs rest := by
  simp [procSegs, dotSeg, dotdotSeg]

theorem procSegs_cons_dotdot_rooted (dots : Nat) (rest : List GoStr) :
    procSegs true dots [] (dotdotSeg :: rest) = procSegs true dots [] rest := by
  simp [procSegs, dotSeg, dotdotSeg]

theorem procSegs_cons_dotdot_unrooted (dots : Nat) (rest : List GoStr) :
    procSegs false dots [] (dotdotSeg :: rest) = procSegs false (dots + 1) [] rest := by
  simp [procSegs, dotSeg, dotdotSeg]

theorem procSegs_cons_push (rooted : Bool) (dots : Nat) (reals : List GoStr) (s : GoStr)
    (rest : List GoStr) (h1 : s ≠ dotSeg) (h2 : s ≠ dotdotSeg) :
    procSegs rooted dots reals (s :: rest) = procSegs rooted dots (s :: reals) rest := by
  simp [procSegs, h1, h2]

theorem renderState_dots_succ (k : Nat) :
    renderState false (k + 1) [] =
      renderState false k [] ++ (if k = 0 then dotdotSeg else '/' :: dotdotSeg) := by
  simp only [renderState, List.reverse_nil, List.append_nil, List.nil_append]
  rw [List.replicate_succ', renderItems_append_single]
  by_cases h : k = 0
  · subst h
    simp [renderItems]
  · simp [h]

theorem takeWhile_nil_cases (cs : GoStr) (h : cs.takeWhile (fun x => !(isSep x)) = []) :
    cs = [] ∨ isSep (cs.headD 'x') = true := by
  cases cs with
  | nil => exact Or.inl rfl
  | cons c1 cs1 =>
    rw [List.takeWhile_cons] at h
    by_cases hc : isSep c1 = true
    · exact Or.inr (by simpa using hc)
    · rw [if_pos (by simp [hc])] at h
      exact absurd h (List.cons_ne_nil _ _)

theorem takeWhile_eq_nil_of_head (cs : GoStr) (h : cs = [] ∨ isSep (cs.headD 'x') = true) :
    cs.takeWhile (fun x => !(isSep x)) = [] ∧ cs.dropWhile (fun x => !(isSep x)) = cs := by
  rcases h with h | h
  · subst h
    exact ⟨rfl, rfl⟩
  · cases cs with
    | nil => exact ⟨rfl, rfl⟩
    | cons c1 cs1 =>
      simp only [List.headD_cons] at h
      rw [List.takeWhile_cons, List.dropWhile_cons]
      simp [h]

/-- The separator-insertion test of the Clean loop holds exactly when the abstract
state already holds at least one item. -/
theorem loopCond_iff (rooted : Bool) (dots : Nat) (reals : List GoStr)
    (hr : rooted = true → dots = 0) (hreals : ∀ r ∈ reals, Plain r) :
    ((rooted = true ∧ ((renderState rooted dots reals).reverse).length ≠ 1) ∨
      (rooted = false ∧ ((renderState rooted dots reals).reverse).length ≠ 0)) ↔
      ¬(dots = 0 ∧ reals = []) := by
  rw [List.length_reverse]
  cases rooted with
  | true =>
    have h0 := hr rfl
    subst h0
    constructor
    · rintro (⟨-, hl⟩ | ⟨hf, -⟩)
      · rintro ⟨-, hnil⟩
        subst hnil
        exact hl (length_renderState_nil true 0 (fun _ => rfl))
      · exact absurd hf (by simp)
    · intro hne
      left
      refine ⟨rfl, ?_⟩
      cases reals with
      | nil => exact absurd ⟨rfl, rfl⟩ hne
      | cons r rs =>
        have hlt := ddOf_lt_length_renderState true 0 r rs (fun _ => rfl)
          (hreals r (List.mem_cons_self _ _)).1
        have hdd1 : ddOf true 0 = 1 := rfl
        omega
  | false =>
    constructor
    · rintro (⟨ht, -⟩ | ⟨-, hl⟩)
      · exact absurd ht (by simp)
      · rintro ⟨hd0, hnil⟩
        subst hd0
        subst hnil
        exact hl (length_renderState_nil false 0 (by simp))
    · intro hne
      right
      refine ⟨rfl, ?_⟩
      cases reals with
      | nil =>
        have hd : dots ≠ 0 := fun h0 => hne ⟨h0, rfl⟩
        rw [length_renderState_nil false dots (by simp)]
        simp only [ddOf, if_neg Bool.false_ne_true, if_neg hd]
        omega
      | cons r rs =>
        have hlt := ddOf_lt_length_renderState false dots r rs (by simp)
          (hreals r (List.mem_cons_self _ _)).1
        omega

/-- The character-level Clean loop implements the segment-level state machine:
running the loop from a rendered abstract state over any input equals rendering
the state after processing the input's segments. -/
theorem cleanLoop_spec (rooted : Bool) :
    ∀ n (p : GoStr), p.length ≤ n → ∀ (dots : Nat) (reals : List GoStr),
      (rooted = true → dots = 0) → (∀ r ∈ reals, Plain r) →
      cleanLoop rooted n p ((renderState rooted dots reals).reverse) (ddOf rooted dots) =
        (renderState rooted (procSegs rooted dots reals (segs p)).1
          (procSegs rooted dots reals (segs p)).2).reverse := by
  intro n
  induction n with
  | zero =>
    intro p hp dots reals _ _
    have hp0 : p = [] := List.eq_nil_of_length_eq_zero (Nat.le_antisymm hp (Nat.zero_le _))
    subst hp0
    rw [segs_nil, procSegs_nil]
    rfl
  | succ n ih =>
    intro p hp dots reals hr hreals
    cases p with
    | nil =>
      rw [segs_nil, procSegs_nil]
      rfl
    | cons c cs =>
      have hcs_le : cs.length ≤ n := by simpa using hp
      by_cases hsep : isSep c = true
      · rw [segs_cons_sep c cs hsep, cleanLoop, if_pos hsep]
        exact ih cs hcs_le dots reals hr hreals
      · by_cases hdot : c = '.' ∧ (cs = [] ∨ isSep (cs.headD 'x') = true)
        · obtain ⟨htw, hdw⟩ := takeWhile_eq_nil_of_head cs hdot.2
          have hd : (c :: cs.takeWhile (fun x => !(isSep x))) = dotSeg := by
            rw [htw, hdot.1]
            rfl
          rw [segs_cons_elem c cs hsep, hd, hdw, procSegs_cons_dot,
              cleanLoop, if_neg hsep, if_pos hdot]
          exact ih cs hcs_le dots reals hr hreals
        · by_cases hdd : c = '.' ∧ cs.headD 'x' = '.' ∧
              (cs.tail = [] ∨ isSep (cs.tail.headD 'x') = true)
          · obtain ⟨hc, hh, ht⟩ := hdd
            subst hc
            cases cs with
            | nil => simp at hh
            | cons c1 cs2 =>
              simp only [List.headD_cons] at hh
              subst hh
              simp only [List.tail_cons] at ht
              have hcs2_le : cs2.length ≤ n := by
                simp only [List.length_cons] at hp
                omega
              obtain ⟨htw2, hdw2⟩ := takeWhile_eq_nil_of_head cs2 ht
              have htw3 : ('.' :: cs2).takeWhile (fun x => !(isSep x)) = ['.'] := by
                rw [List.takeWhile_cons, if_pos (by decide), htw2]
              have hdw3 : ('.' :: cs2).dropWhile (fun x => !(isSep x)) = cs2 := by
                rw [List.dropWhile_cons, if_pos (by decide), hdw2]
              have hsegs : segs ('.' :: '.' :: cs2) = dotdotSeg :: segs cs2 := by
                rw [segs_cons_elem _ _ hsep, htw3, hdw3]
                rfl
              rw [hsegs, cleanLoop, if_neg hsep, if_neg hdot,
                  if_pos ⟨rfl, rfl, ht⟩]
              cases reals with
              | cons r rs =>
                have hplain_r : Plain r := hreals r (List.mem_cons_self _ _)
                have hlt : ddOf rooted dots <
                    ((renderState rooted dots (r :: rs)).reverse).length := by
                  rw [List.length_reverse]
                  exact ddOf_lt_length_renderState rooted dots r rs hr hplain_r.1
                rw [if_pos hlt, dropElem_renderState rooted dots r rs hr hplain_r,
                    procSegs_cons_dotdot_pop]
                exact ih cs2 hcs2_le dots rs hr
                  (fun x hx => hreals x (List.mem_cons_of_mem r hx))
              | nil =>
                have hlen : ((renderState rooted dots []).reverse).length = ddOf rooted dots := by
                  rw [List.length_reverse]
                  exact length_renderState_nil rooted dots hr
                rw [if_neg (by rw [hlen]; exact Nat.lt_irrefl _)]
                cases rooted with
                | true =>
                  rw [if_pos rfl, procSegs_cons_dotdot_rooted]
                  exact ih cs2 hcs2_le dots [] (fun _ => hr rfl) (by simp)
                | false =>
                  rw [if_neg (by simp), procSegs_cons_dotdot_unrooted]
                  have hlen' : ((renderState false dots []).reverse).length = ddOf false dots := by
                    rw [List.length_reverse]
                    exact length_renderState_nil false dots (by simp)
                  have key : ('.' :: '.' ::
                      (if ((renderState false dots []).reverse).length ≠ 0
                        then '/' :: (renderState false dots []).reverse
                        else (renderState false dots []).reverse)) =
                      (renderState false (dots + 1) []).reverse := by
                    by_cases hd0 : dots = 0
                    · subst hd0
                      have h0 : renderState false 0 [] = [] := by
                        simp [renderState, renderItems]
                      rw [h0, renderState_dots_succ 0, h0]
                      rw [List.reverse_nil, if_neg (by simp)]
                      rfl
                    · have hne0 : ((renderState false dots []).reverse).length ≠ 0 := by
                        rw [hlen']
                        simp only [ddOf, if_neg Bool.false_ne_true, if_neg hd0]
                        omega
                      rw [if_pos hne0, renderState_dots_succ dots, if_neg hd0,
                          List.reverse_append]
                      rfl
                  show cleanLoop false n cs2 _ _ = _
                  rw [key, List.length_reverse,
                      length_renderState_nil false (dots + 1) (by simp)]
                  exact ih cs2 hcs2_le (dots + 1) [] (by simp) (by simp)
          · -- ordinary element
            have helem_plain : Plain (c :: cs.takeWhile (fun x => !(isSep x))) := by
              refine ⟨List.cons_ne_nil _ _, ?_⟩
              intro x hx
              rcases List.mem_cons.mp hx with hx1 | hx1
              · subst hx1
                simpa using hsep
              · have h2 := List.mem_takeWhile_imp hx1
                simpa using h2
            have helem_ne_dot : (c :: cs.takeWhile (fun x => !(isSep x))) ≠ dotSeg := by
              intro he
              simp only [dotSeg] at he
              injection he with h1 h2
              exact hdot ⟨h1, takeWhile_nil_cases cs h2⟩
            have helem_ne_dotdot : (c :: cs.takeWhile (fun x => !(isSep x))) ≠ dotdotSeg := by
              intro he
              simp only [dotdotSeg] at he
              injection he with h1 h2
              cases cs with
              | nil => simp at h2
              | cons c1 cs1 =>
                rw [List.takeWhile_cons] at h2
                by_cases hc1 : (!(isSep c1)) = true
                · rw [if_pos hc1] at h2
                  injection h2 with h3 h4
                  exact hdd ⟨h1, by simp [h3], by simpa using takeWhile_nil_cases cs1 h4⟩
                · rw [if_neg hc1] at h2
                  exact absurd h2.symm (List.cons_ne_nil _ _)
            rw [segs_cons_elem c cs hsep,
                procSegs_cons_push rooted dots reals _ _ helem_ne_dot helem_ne_dotdot,
                cleanLoop, if_neg hsep, if_neg hdot, if_neg hdd]
            have hrest_le : (cs.dropWhile (fun x => !(isSep x))).length ≤ n :=
              Nat.le_trans (List.dropWhile_sublist _).length_le hcs_le
            have hreals' : ∀ x ∈ (c :: cs.takeWhile (fun x => !(isSep x))) :: reals, Plain x := by
              intro x hx
              rcases List.mem_cons.mp hx with hx1 | hx1
              · subst hx1
                exact helem_plain
              · exact hreals x hx1
            by_cases hbase : dots = 0 ∧ reals = []
            · rw [if_neg (fun hcnd => (loopCond_iff rooted dots reals hr hreals).mp hcnd hbase)]
              have hbuf : (c :: cs.takeWhile (fun x => !(isSep x))).reverse ++
                  (renderState rooted dots reals).reverse =
                  (renderState rooted dots ((c :: cs.takeWhile (fun x => !(isSep x))) :: reals)).reverse := by
                rw [renderState_cons, if_pos hbase, List.reverse_append]
              show cleanLoop rooted n (cs.dropWhile (fun x => !(isSep x)))
                  ((c :: cs.takeWhile (fun x => !(isSep x))).reverse ++
                    (renderState rooted dots reals).reverse) (ddOf rooted dots) = _
              rw [hbuf]
              exact ih _ hrest_le dots _ hr hreals'
            · rw [if_pos ((loopCond_iff rooted dots reals hr hreals).mpr hbase)]
              have hbuf : (c :: cs.takeWhile (fun x => !(isSep x))).reverse ++
                  '/' :: (renderState rooted dots reals).reverse =
                  (renderState rooted dots ((c :: cs.takeWhile (fun x => !(isSep x))) :: reals)).reverse := by
                conv_rhs => rw [renderState_cons, if_neg hbase, List.reverse_append,
                  List.reverse_cons, List.append_assoc]
                rfl
              show cleanLoop rooted n (cs.dropWhile (fun x => !(isSep x)))
                  ((c :: cs.takeWhile (fun x => !(isSep x))).reverse ++
                    '/' :: (renderState rooted dots reals).reverse) (ddOf rooted dots) = _
              rw [hbuf]
              exact ih _ hrest_le dots _ hr hreals'

/-- filepath.Clean equals its segment-level restatement. -/
theorem filepathClean_eq_specClean (p : GoStr) : filepathClean p = specClean p := by
  by_cases hp : p = []
  · subst hp
    rfl
  · simp only [filepathClean, specClean, if_neg hp]
    cases hroot : isSep (p.headD 'x') with
    | false =>
      have h := cleanLoop_spec false p.length p (Nat.le_refl _) 0 [] (by simp) (by simp)
      rw [show (if (false : Bool) = true then (['/'] : GoStr) else []) =
            (renderState false 0 []).reverse from rfl,
          show (if (false : Bool) = true then (1 : Nat) else 0) = ddOf false 0 from rfl, h,
          List.reverse_reverse]
      by_cases hr0 : renderState false (procSegs false 0 [] (segs p)).1
          (procSegs false 0 [] (segs p)).2 = []
      · rw [if_pos (by rw [hr0]; rfl), if_pos hr0]
      · rw [if_neg (by simpa using hr0), if_neg hr0]
    | true =>
      have h := cleanLoop_spec true p.length p (Nat.le_refl _) 0 [] (fun _ => rfl) (by simp)
      rw [show (if (true : Bool) = true then (['/'] : GoStr) else []) =
            (renderState true 0 []).reverse from rfl,
          show (if (true : Bool) = true then (1 : Nat) else 0) = ddOf true 0 from rfl, h,
          List.reverse_reverse]
      by_cases hr0 : renderState true (procSegs true 0 [] (segs p)).1
          (procSegs true 0 [] (segs p)).2 = []
      · rw [if_pos (by rw [hr0]; rfl), if_pos hr0]
      · rw [if_neg (by simpa using hr0), if_neg hr0]

theorem procSegs_append (rooted : Bool) (xs ys : List GoStr) :
    ∀ (dots : Nat) (reals : List GoStr),
      procSegs rooted dots reals (xs ++ ys) =
        procSegs rooted (procSegs rooted dots reals xs).1 (procSegs rooted dots reals xs).2 ys := by
  induction xs with
  | nil =>
    intro dots reals
    rfl
  | cons s xs ih =>
    intro dots reals
    by_cases h1 : s = dotSeg
    · subst h1
      rw [List.cons_append, procSegs_cons_dot, procSegs_cons_dot, ih]
    · by_cases h2 : s = dotdotSeg
      · subst h2
        cases reals with
        | cons r rs =>
          rw [List.cons_append, procSegs_cons_dotdot_pop, procSegs_cons_dotdot_pop, ih]
        | nil =>
          cases rooted with
          | true =>
            rw [List.cons_append, procSegs_cons_dotdot_rooted, procSegs_cons_dotdot_rooted, ih]
          | false =>
            rw [List.cons_append, procSegs_cons_dotdot_unrooted, procSegs_cons_dotdot_unrooted, ih]
      · rw [List.cons_append, procSegs_cons_push rooted _ _ _ _ h1 h2,
            procSegs_cons_push rooted _ _ _ _ h1 h2, ih]

theorem procSegs_dots_run (dots k : Nat) :
    procSegs false dots [] (List.replicate k dotdotSeg) = (dots + k, []) := by
  induction k generalizing dots with
  | zero => rfl
  | succ k ih =>
    rw [List.replicate_succ, procSegs_cons_dotdot_unrooted, ih]
    congr 1
    omega

theorem procSegs_push_run (rooted : Bool) (ys : List GoStr) (h : ∀ y ∈ ys, Canon y) :
    ∀ (dots : Nat) (reals : List GoStr),
      procSegs rooted dots reals ys = (dots, ys.reverse ++ reals) := by
  induction ys with
  | nil =>
    intro dots reals
    rfl
  | cons y ys ih =>
    intro dots reals
    obtain ⟨-, hy1, hy2⟩ := h y (List.mem_cons_self _ _)
    rw [procSegs_cons_push rooted _ _ _ _ hy1 hy2,
        ih (fun x hx => h x (List.mem_cons_of_mem y hx)), List.reverse_cons, List.append_assoc]
    rfl

theorem procSegs_inv (rooted : Bool) : ∀ (ss : List GoStr) (dots : Nat) (reals : List GoStr),
    (rooted = true → dots = 0) → (∀ r ∈ reals, Canon r) → (∀ s ∈ ss, Plain s) →
    ((rooted = true → (procSegs rooted dots reals ss).1 = 0) ∧
      (∀ r ∈ (procSegs rooted dots reals ss).2, Canon r)) := by
  intro ss
  induction ss with
  | nil =>
    intro dots reals hr hc _
    exact ⟨hr, hc⟩
  | cons s ss ih =>
    intro dots reals hr hc hp
    have hptail : ∀ x ∈ ss, Plain x := fun x hx => hp x (List.mem_cons_of_mem s hx)
    by_cases h1 : s = dotSeg
    · subst h1
      rw [procSegs_cons_dot]
      exact ih dots reals hr hc hptail
    · by_cases h2 : s = dotdotSeg
      · subst h2
        cases reals with
        | cons r rs =>
          rw [procSegs_cons_dotdot_pop]
          exact ih dots rs hr (fun x hx => hc x (List.mem_cons_of_mem r hx)) hptail
        | nil =>
          cases rooted with
          | true =>
            rw [procSegs_cons_dotdot_rooted]
            exact ih dots [] hr (by simp) hptail
          | false =>
            rw [procSegs_cons_dotdot_unrooted]
            exact ih (dots + 1) [] (by simp) (by simp) hptail
      · rw [procSegs_cons_push rooted _ _ _ _ h1 h2]
        refine ih dots (s :: reals) hr ?_ hptail
        intro x hx
        rcases List.mem_cons.mp hx with hx1 | hx1
        · subst hx1
          exact ⟨hp x (List.mem_cons_self _ _), h1, h2⟩
        · exact hc x hx1

theorem segs_renderItems (items : List GoStr) (h : ∀ i ∈ items, Plain i) :
    segs (renderItems items) = items := by
  induction items with
  | nil => rfl
  | cons x xs ih =>
    cases xs with
    | nil =>
      show segs (x ++ prependEach []) = [x]
      rw [show prependEach [] = [] from rfl, List.append_nil]
      exact segs_single_plain x (h x (List.mem_cons_self _ _))
    | cons y ys =>
      show segs (x ++ '/' :: renderItems (y :: ys)) = x :: y :: ys
      rw [segs_append_sep x.length x _ (Nat.le_refl _),
          segs_single_plain x (h x (List.mem_cons_self _ _)),
          ih (fun i hi => h i (List.mem_cons_of_mem x hi))]
      rfl

theorem segs_renderState (rooted : Bool) (dots : Nat) (reals : List GoStr)
    (hr : rooted = true → dots = 0) (hplain : ∀ r ∈ reals, Plain r) :
    segs (renderState rooted dots reals) = List.replicate dots dotdotSeg ++ reals.reverse := by
  have hitems : ∀ i ∈ (List.replicate dots dotdotSeg ++ reals.reverse), Plain i := by
    intro i hi
    rcases List.mem_append.mp hi with hi1 | hi1
    · rw [List.eq_of_mem_replicate hi1]
      exact plain_dotdotSeg
    · exact hplain i (List.mem_reverse.mp hi1)
  cases rooted with
  | true =>
    have h0 := hr rfl
    subst h0
    show segs ('/' :: renderItems ([] ++ reals.reverse)) = _
    rw [segs_cons_sep _ _ (by rfl), List.nil_append,
        segs_renderItems reals.reverse (by simpa using hitems)]
    rfl
  | false =>
    show segs (renderItems (List.replicate dots dotdotSeg ++ reals.reverse)) = _
    exact segs_renderItems _ hitems

theorem procSegs_state_id (rooted : Bool) (dots : Nat) (reals : List GoStr)
    (hr : rooted = true → dots = 0) (hcanon : ∀ r ∈ reals, Canon r) :
    procSegs rooted 0 [] (List.replicate dots dotdotSeg ++ reals.reverse) = (dots, reals) := by
  have hrevc : ∀ y ∈ reals.reverse, Canon y := fun y hy => hcanon y (List.mem_reverse.mp hy)
  cases rooted with
  | true =>
    have h0 := hr rfl
    subst h0
    rw [List.replicate, List.nil_append, procSegs_push_run true reals.reverse hrevc]
    simp
  | false =>
    rw [procSegs_append, procSegs_dots_run, procSegs_push_run false reals.reverse hrevc]
    simp

theorem headD_renderItems (items : List GoStr) (h : ∀ i ∈ items, Plain i)
    (hne : renderItems items ≠ []) :
    isSep ((renderItems items).headD 'x') = false := by
  cases items with
  | nil => exact absurd rfl hne
  | cons x xs =>
    obtain ⟨hxne, hxall⟩ := h x (List.mem_cons_self _ _)
    cases x with
    | nil => exact absurd rfl hxne
    | cons x0 x' =>
      show isSep (((x0 :: x') ++ prependEach xs).headD 'x') = false
      rw [List.cons_append, List.headD_cons]
      exact hxall x0 (List.mem_cons_self _ _)

theorem headD_renderState (rooted : Bool) (dots : Nat) (reals : List GoStr)
    (hplain : ∀ r ∈ reals, Plain r) (hne : renderState rooted dots reals ≠ []) :
    isSep ((renderState rooted dots reals).headD 'x') = rooted := by
  cases rooted with
  | true => rfl
  | false =>
    have hitems : ∀ i ∈ (List.replicate dots dotdotSeg ++ reals.reverse), Plain i := by
      intro i hi
      rcases List.mem_append.mp hi with hi1 | hi1
      · rw [List.eq_of_mem_replicate hi1]
        exact plain_dotdotSeg
      · exact hplain i (List.mem_reverse.mp hi1)
    exact headD_renderItems _ hitems (by simpa [renderState] using hne)

/-- A nonempty canonical rendering is a fixed point of specClean. -/
theorem specClean_renderState (rooted : Bool) (dots : Nat) (reals : List GoStr)
    (hr : rooted = true → dots = 0) (hreals : ∀ r ∈ reals, Canon r)
    (hne : renderState rooted dots reals ≠ []) :
    specClean (renderState rooted dots reals) = renderState rooted dots reals := by
  have hplain : ∀ r ∈ reals, Plain r := fun r h => (hreals r h).1
  simp only [specClean]
  rw [if_neg hne, headD_renderState rooted dots reals hplain hne,
      segs_renderState rooted dots reals hr hplain,
      procSegs_state_id rooted dots reals hr hreals]
  rw [if_neg hne]

/-- specClean never returns the empty string. -/
theorem specClean_ne_nil (p : GoStr) : specClean p ≠ [] := by
  by_cases hp : p = []
  · simp [specClean, hp]
  · simp only [specClean, if_neg hp]
    split
    · exact List.cons_ne_nil _ _
    · next h => exact h

/-- specClean is idempotent. -/
theorem specClean_idem (p : GoStr) : specClean (specClean p) = specClean p := by
  by_cases hp : p = []
  · subst hp
    rfl
  · have hsegsp : ∀ s ∈ segs p, Plain s := segs_plain p.length p (Nat.le_refl _)
    have hinv := procSegs_inv (isSep (p.headD 'x')) (segs p) 0 []
      (fun _ => rfl) (by simp) hsegsp
    have hspec : specClean p =
        if renderState (isSep (p.headD 'x'))
            (procSegs (isSep (p.headD 'x')) 0 [] (segs p)).1
            (procSegs (isSep (p.headD 'x')) 0 [] (segs p)).2 = []
        then ['.']
        else renderState (isSep (p.headD 'x'))
            (procSegs (isSep (p.headD 'x')) 0 [] (segs p)).1
            (procSegs (isSep (p.headD 'x')) 0 [] (segs p)).2 := by
      simp only [specClean, if_neg hp]
    by_cases hr0 : renderState (isSep (p.headD 'x'))
        (procSegs (isSep (p.headD 'x')) 0 [] (segs p)).1
        (procSegs (isSep (p.headD 'x')) 0 [] (segs p)).2 = []
    · rw [hspec, if_pos hr0]
      rfl
    · rw [hspec, if_neg hr0]
      exact specClean_renderState _ _ _ hinv.1 hinv.2 hr0

/-- filepath.Clean is idempotent. -/
theorem filepathClean_idem (p : GoStr) : filepathClean (filepathClean p) = filepathClean p := by
  rw [show filepathClean p = specClean p from filepathClean_eq_specClean p,
      filepathClean_eq_specClean, specClean_idem]

/-- filepath.Clean never returns the empty string. -/
theorem filepathClean_ne_nil (p : GoStr) : filepathClean p ≠ [] := by
  rw [filepathClean_eq_specClean]
  exact specClean_ne_nil p

theorem specClean_append_dotJunk (p q : GoStr) (hp : p ≠ [])
    (hq : segs q = [] ∨ segs q = [dotSeg]) :
    specClean (p ++ '/' :: q) = specClean p := by
  have hne2 : p ++ '/' :: q ≠ [] := by
    cases p with
    | nil => exact absurd rfl hp
    | cons c cs => simp
  have hhead : (p ++ '/' :: q).headD 'x' = p.headD 'x' := by
    cases p with
    | nil => exact absurd rfl hp
    | cons c cs => rfl
  simp only [specClean, if_neg hp, if_neg hne2, hhead]
  rw [segs_append_sep p.length p q (Nat.le_refl _)]
  rcases hq with hq | hq
  · rw [hq, List.append_nil]
  · rw [hq, procSegs_append, procSegs_cons_dot, procSegs_nil]

/-- Cleaning the already-cleaned root with junk that contributes no path element
(a bare separator run, possibly followed by a "." element) gives back the cleaned
root. -/
theorem clean_root_junk (d q : GoStr) (hq : segs q = [] ∨ segs q = [dotSeg]) :
    filepathClean (filepathClean d ++ '/' :: q) = filepathClean d := by
  rw [show filepathClean d = specClean d from filepathClean_eq_specClean d,
      filepathClean_eq_specClean,
      specClean_append_dotJunk (specClean d) q (specClean_ne_nil d) hq, specClean_idem]

/-- Cleaning `Clean(d) + "/"` gives back `Clean(d)`: the re-cleaning inside
validatePath agrees with the cleaned destination root. -/
theorem clean_cleanDest (d : GoStr) :
    filepathClean (filepathClean d ++ ['/']) = filepathClean d :=
  clean_root_junk d [] (Or.inl rfl)

theorem isPrefixOf_append_slash_self_false (x : GoStr) : (x ++ ['/']).isPrefixOf x = false := by
  cases h : (x ++ ['/']).isPrefixOf x with
  | false => rfl
  | true =>
    have hlen := (List.isPrefixOf_iff_prefix.mp h).length_le
    have hlen2 : x.length + 1 ≤ x.length := by simp at hlen
    omega

/-! Go standard library string and path helpers used by archive.go, Unix rules. -/

/-- Go strings.TrimSuffix. -/
def trimSuffixGo (s sfx : GoStr) : GoStr :=
  if sfx.isSuffixOf s then s.take (s.length - sfx.length) else s

/-- Go strings.HasSuffix, as used to pick the gzip reader. -/
def goHasSuffix (s sfx : GoStr) : Bool := sfx.isSuffixOf s

/-- Go filepath.Join for two path elements: empty elements are skipped, the rest
joined with a separator and cleaned. -/
def filepathJoin (a b : GoStr) : GoStr :=
  if a = [] then (if b = [] then [] else filepathClean b)
  else filepathClean (a ++ '/' :: b)

/-- Go filepath.Ext: the suffix of the final element starting at its last dot,
empty when the final element has no dot. -/
def filepathExt (p : GoStr) : GoStr :=
  let r := p.reverse.takeWhile (fun c => !(isSep c))
  if '.' ∈ r then ((r.takeWhile (fun c => !(c == '.'))) ++ ['.']).reverse else []

/-- Go filepath.Base: the last element of the path after trailing separators are
removed; "." for the empty path, "/" when the path is all separators. -/
def filepathBase (p : GoStr) : GoStr :=
  if p = [] then ['.']
  else
    let rev := p.reverse.dropWhile isSep
    let elem := (rev.takeWhile (fun c => !(isSep c))).reverse
    if elem = [] then ['/'] else elem

/-- Go filepath.Dir: everything but the final element, cleaned. -/
def filepathDir (p : GoStr) : GoStr :=
  filepathClean ((p.reverse.dropWhile (fun c => !(isSep c))).reverse)

/-! The path-safety helpers of archive.go. -/

/-- archive.go validatePath: requires Clean(target) to have Clean(destDir) plus a
separator as a prefix; fails with the illegal-path error naming the target
otherwise (Go: fmt.Errorf("illegal file path: %s", target)). -/
def validatePath (target destDir : GoStr) : Except GoStr Unit :=
  let cleanDest := filepathClean destDir ++ ['/']
  if cleanDest.isPrefixOf (filepathClean target) then Except.ok () else Except.error target

/-- archive.go safeJoin: joins destDir and fileName and validates the result
against path traversal, returning the joined path only when containment holds. -/
def safeJoin (destDir fileName : GoStr) : Except GoStr GoStr :=
  let cleanDest := filepathClean destDir ++ ['/']
  let filePath := filepathJoin cleanDest fileName
  match validatePath filePath cleanDest with
  | Except.error e => Except.error e
  | Except.ok _ => Except.ok filePath

/-- Closed form of safeJoin: join, then accept exactly when the cleaned join has
the cleaned root plus separator as a prefix. -/
theorem safeJoin_eq (destDir name : GoStr) :
    safeJoin destDir name =
      (if (filepathClean destDir ++ ['/']).isPrefixOf
          (filepathClean (filepathJoin (filepathClean destDir ++ ['/']) name))
        then Except.ok (filepathJoin (filepathClean destDir ++ ['/']) name)
        else Except.error (filepathJoin (filepathClean destDir ++ ['/']) name)) := by
  simp only [safeJoin, validatePath, clean_cleanDest]
  by_cases hC : (filepathClean destDir ++ ['/']).isPrefixOf
      (filepathClean (filepathJoin (filepathClean destDir ++ ['/']) name)) = true
  · rw [if_pos hC, if_pos hC]
  · rw [if_neg hC, if_neg hC]

theorem join_root_empty (d : GoStr) :
    filepathJoin (filepathClean d ++ ['/']) [] = filepathClean d := by
  rw [filepathJoin, if_neg (by simp), List.append_assoc]
  exact clean_root_junk d ['/'] (Or.inl rfl)

theorem join_root_dot (d : GoStr) :
    filepathJoin (filepathClean d ++ ['/']) ['.'] = filepathClean d := by
  rw [filepathJoin, if_neg (by simp), List.append_assoc]
  exact clean_root_junk d ('/' :: ['.']) (Or.inr rfl)

theorem join_root_dotSlash (d : GoStr) :
    filepathJoin (filepathClean d ++ ['/']) ['.', '/'] = filepathClean d := by
  rw [filepathJoin, if_neg (by simp), List.append_assoc]
  exact clean_root_junk d ('/' :: ['.', '/']) (Or.inr rfl)

/-- An entry name that joins back to the root itself is rejected by safeJoin. -/
theorem safeJoin_root_error (d name : GoStr)
    (hj : filepathJoin (filepathClean d ++ ['/']) name = filepathClean d) :
    safeJoin d name = Except.error (filepathClean d) := by
  rw [safeJoin_eq, hj, filepathClean_idem, isPrefixOf_append_slash_self_false,
      if_neg Bool.false_ne_true]

/-! The archive engine of archive.go: detection, extraction adapters, dispatcher.
File bytes are lists of naturals; each byte-producing codec (zip, sevenzip, tar,
gzip) is the black-box collaborator the spec names, abstracted as the list of
entries it yields for the file. -/

/-- archive.go maxExtractFileSize: the per-file extraction cap (Go: 5 << 30). -/
def maxExtractFileSize : Nat := 5 <<< 30

/-- archive.go sanitizeFileMode: a mode outside [0, 0o777] is replaced by the safe
default 0o755. -/
def sanitizeFileMode (mode : Int) : Nat :=
  if mode < 0 ∨ mode > 0o777 then 0o755 else mode.toNat

/-- ZIP local-file signature bytes 0x50 0x4B 0x03 0x04. -/
def zipMagic : List Nat := [0x50, 0x4B, 0x03, 0x04]

/-- 7-Zip signature bytes 0x37 0x7A 0xBC 0xAF 0x27 0x1C. -/
def sevenZipMagic : List Nat := [0x37, 0x7A, 0xBC, 0xAF, 0x27, 0x1C]

/-- The ASCII bytes of "ustar" (POSIX tar magic at offset 257). -/
def ustarMagic : List Nat := [0x75, 0x73, 0x74, 0x61, 0x72]

/-- One os.File.Read into a zero-initialised n-byte buffer at the start of the
given byte sequence: the buffer receives the min(n, available) next bytes, the
rest of it stays zero. -/
def readBuf (n : Nat) (bytes : List Nat) : List Nat :=
  bytes.take n ++ List.replicate (n - bytes.length) 0

/-- An entry of a ZIP archive as zip.Reader yields it. -/
structure ZipEntry where
  name : GoStr
  isDir : Bool
  content : List Nat

/-- An entry of a 7-Zip archive as sevenzip.Reader yields it. -/
structure SevenZipEntry where
  name : GoStr
  isDir : Bool
  mode : Int
  content : List Nat

/-- An entry of a TAR stream as tar.Reader yields it. -/
structure TarEntry where
  name : GoStr
  typeflag : Char
  mode : Int
  content : List Nat

/-- An input file as the engine sees it: its path, whether os.Open / Read / Seek
succeed on it, its raw bytes, and for each codec whether opening succeeds and the
entries the codec would yield (meaningful for the matching format only). -/
structure SrcFile where
  path : GoStr
  openOk : Bool
  readOk : Bool
  seekOk : Bool
  bytes : List Nat
  zipOpens : Bool
  zipEntries : List ZipEntry
  sevenOpens : Bool
  sevenEntries : List SevenZipEntry
  tarOpens : Bool
  tarEntries : List TarEntry

/-- archive.go IsZipFile: false when the file cannot be opened or the first read
fails (an empty file makes Read return io.EOF), true exactly when the 4-byte
buffer holds the ZIP signature. -/
def IsZipFile (f : SrcFile) : Bool :=
  f.openOk && f.readOk && !f.bytes.isEmpty && (readBuf 4 f.bytes == zipMagic)

/-- archive.go Is7zFile: same shape with the 6-byte 7-Zip signature. -/
def Is7zFile (f : SrcFile) : Bool :=
  f.openOk && f.readOk && !f.bytes.isEmpty && (readBuf 6 f.bytes == sevenZipMagic)

/-- archive.go IsTarFile: seeks to offset 257, requires the 6-byte read to return
n = 6 bytes, and checks that the buffer starts with "ustar". -/
def IsTarFile (f : SrcFile) : Bool :=
  f.openOk && f.seekOk && f.readOk &&
    decide (6 ≤ (f.bytes.drop 257).length) && ((f.bytes.drop 257).take 5 == ustarMagic)

/-- Office Open XML extensions excluded by IsActualArchive. -/
def officeExtensions : List GoStr :=
  [".docx".toList, ".xlsx".toList, ".pptx".toList, ".docm".toList, ".xlsm".toList,
    ".pptm".toList]

/-- OpenDocument extensions excluded by IsActualArchive. -/
def openDocExtensions : List GoStr :=
  [".odt".toList, ".ods".toList, ".odp".toList, ".odg".toList, ".odf".toList]

/-- Go strings.ToLower, restricted to the ASCII range the compared extensions use. -/
def toLowerGo (s : GoStr) : GoStr := s.map Char.toLower

/-- archive.go IsActualArchive: extension-based policy filter excluding Office,
OpenDocument and JAR containers, true for everything else. -/
def IsActualArchive (path : GoStr) : Bool :=
  let ext := toLowerGo (filepathExt path)
  if officeExtensions.contains ext then false
  else if openDocExtensions.contains ext then false
  else if ext == ".jar".toList then false
  else true

/-- Error kinds surfaced by the extraction engine; wrapped records a
fmt.Errorf("...: %w", err) context around an inner error. -/
inductive ExtractErr where
  | pathTraversal (target : GoStr)
  | cancelled
  | openFailed
  | unsupported (src : GoStr)
  | internalEmpty (src : GoStr)
  | wrapped (ctx : String) (e : ExtractErr)
deriving DecidableEq

/-- A filesystem write action: mkDir records an ensure-directory-exists call
(utils.CreateDir, the os.Stat-then-os.Mkdir pattern, or os.Mkdir tolerating
os.IsExist); file records creating/truncating a file with the given byte content.
Permission bits are outside the model. -/
inductive FsWrite where
  | mkDir (path : GoStr)
  | file (path : GoStr) (content : List Nat)
deriving DecidableEq

/-- Modelled from the spec: utils.CreateDir is called by ExtractZip but its code is
not among the provided source files; per the spec it "ensures destRoot exists,
creating it (and only it — not arbitrary ancestors) if missing" and pre-existing
directories are not an error, so its effect is one ensure-directory write. -/
def createDirWrite (p : GoStr) : FsWrite := FsWrite.mkDir p

/-- Whether the cancellation signal is observed at poll number i: the context is
cancelled from poll index k on (none = never cancelled), so the signal stays set
once fired. -/
def ctxDone (cancelAt : Option Nat) (i : Nat) : Bool :=
  match cancelAt with
  | none => false
  | some k => decide (k ≤ i)

/-- The outcome of an extraction call: the filesystem writes performed, in order,
and the returned value (extracted path or error). -/
structure ExtractOutcome where
  writes : List FsWrite
  result : Except ExtractErr GoStr

/-- Entry loop of archive.go ExtractZip: polls cancellation before each entry
(range loop, so no poll after the last entry), safe-joins the entry name (wrapping
a failure as "invalid file path"), creates the directory for a directory entry,
and otherwise ensures the parent directory and copies the file content through
io.LimitReader(rc, maxExtractFileSize). -/
def extractZipLoop (cancelAt : Option Nat) (cleanDest : GoStr) :
    List ZipEntry → Nat → List FsWrite × Option ExtractErr
  | [], _ => ([], none)
  | e :: rest, i =>
    if ctxDone cancelAt i then ([], some ExtractErr.cancelled)
    else
      match safeJoin cleanDest e.name with
      | Except.error t =>
        ([], some (ExtractErr.wrapped "invalid file path" (ExtractErr.pathTraversal t)))
      | Except.ok filePath =>
        if e.isDir then
          let r := extractZipLoop cancelAt cleanDest rest (i + 1)
          (createDirWrite filePath :: r.1, r.2)
        else
          let r := extractZipLoop cancelAt cleanDest rest (i + 1)
          (createDirWrite (filepathDir filePath) ::
            FsWrite.file filePath (e.content.take maxExtractFileSize) :: r.1, r.2)

/-- archive.go ExtractZip over an abstract parsed archive: `opens` stands for
zip.OpenReader succeeding, the destination is ensured before the loop, and on
success the derived path dest-joined-with-base-name-minus-extension is returned. -/
def ExtractZip (cancelAt : Option Nat) (opens : Bool) (entries : List ZipEntry)
    (src dest : GoStr) : ExtractOutcome :=
  if opens = false then ⟨[], Except.error ExtractErr.openFailed⟩
  else
    let cleanDest := filepathClean dest ++ ['/']
    let r := extractZipLoop cancelAt cleanDest entries 0
    let ws := createDirWrite dest :: r.1
    match r.2 with
    | some e => ⟨ws, Except.error e⟩
    | none =>
      ⟨ws, Except.ok (filepathJoin cleanDest
        (filepathBase (trimSuffixGo src (filepathExt src))))⟩

/-- Entry loop of archive.go Extract7z: identical control flow to the ZIP loop,
except the safeJoin error is returned unwrapped. -/
def extract7zLoop (cancelAt : Option Nat) (cleanDest : GoStr) :
    List SevenZipEntry → Nat → List FsWrite × Option ExtractErr
  | [], _ => ([], none)
  | e :: rest, i =>
    if ctxDone cancelAt i then ([], some ExtractErr.cancelled)
    else
      match safeJoin cleanDest e.name with
      | Except.error t => ([], some (ExtractErr.pathTraversal t))
      | Except.ok outPath =>
        if e.isDir then
          let r := extract7zLoop cancelAt cleanDest rest (i + 1)
          (FsWrite.mkDir outPath :: r.1, r.2)
        else
          let r := extract7zLoop cancelAt cleanDest rest (i + 1)
          (FsWrite.mkDir (filepathDir outPath) ::
            FsWrite.file outPath (e.content.take maxExtractFileSize) :: r.1, r.2)

/-- archive.go Extract7z over an abstract parsed archive. -/
def Extract7z (cancelAt : Option Nat) (opens : Bool) (entries : List SevenZipEntry)
    (src dest : GoStr) : ExtractOutcome :=
  if opens = false then ⟨[], Except.error ExtractErr.openFailed⟩
  else
    let cleanDest := filepathClean dest ++ ['/']
    let r := extract7zLoop cancelAt cleanDest entries 0
    let ws := FsWrite.mkDir dest :: r.1
    match r.2 with
    | some e => ⟨ws, Except.error e⟩
    | none =>
      ⟨ws, Except.ok (filepathJoin cleanDest
        (filepathBase (trimSuffixGo src (filepathExt src))))⟩

/-- tar.TypeDir type flag. -/
def tarTypeDir : Char := '5'

/-- tar.TypeReg type flag. -/
def tarTypeReg : Char := '0'

/-- Entry loop of archive.go ExtractTar: the cancellation poll precedes the
tarReader.Next call, so it also runs once more before end-of-archive is seen;
directory entries are created, regular files have the parent ensured and the
content copied under the cap, and every other type flag is skipped silently. -/
def extractTarLoop (cancelAt : Option Nat) (cleanDest : GoStr) :
    List TarEntry → Nat → List FsWrite × Option ExtractErr
  | es, i =>
    if ctxDone cancelAt i then ([], some ExtractErr.cancelled)
    else
      match es with
      | [] => ([], none)
      | e :: rest =>
        match safeJoin cleanDest e.name with
        | Except.error t => ([], some (ExtractErr.pathTraversal t))
        | Except.ok filePath =>
          if e.typeflag = tarTypeDir then
            let r := extractTarLoop cancelAt cleanDest rest (i + 1)
            (FsWrite.mkDir filePath :: r.1, r.2)
          else if e.typeflag = tarTypeReg then
            let r := extractTarLoop cancelAt cleanDest rest (i + 1)
            (FsWrite.mkDir (filepathDir filePath) ::
              FsWrite.file filePath (e.content.take maxExtractFileSize) :: r.1, r.2)
          else
            extractTarLoop cancelAt cleanDest rest (i + 1)

/-- archive.go ExtractTar over an abstract parsed tar stream: whether src names a
gzip-compressed stream (suffix .gz or .tgz) only selects the gzip reader wrapper in
Go; both readers are abstracted into `opens` and the parsed entries. -/
def ExtractTar (cancelAt : Option Nat) (opens : Bool) (entries : List TarEntry)
    (src dest : GoStr) : ExtractOutcome :=
  if opens = false then ⟨[], Except.error ExtractErr.openFailed⟩
  else
    let cleanDest := filepathClean dest ++ ['/']
    let r := extractTarLoop cancelAt cleanDest entries 0
    let ws := FsWrite.mkDir dest :: r.1
    match r.2 with
    | some e => ⟨ws, Except.error e⟩
    | none =>
      ⟨ws, Except.ok (filepathJoin cleanDest
        (filepathBase (trimSuffixGo src (filepathExt src))))⟩

/-- How ExtractArchive finishes a delegated call: adapter errors are wrapped with
the format label, a successful but empty path is the defensive internal error, and
otherwise the path is passed through. -/
def finishDispatch (label : String) (src : GoStr) (o : ExtractOutcome) : ExtractOutcome :=
  match o.result with
  | Except.error e => ⟨o.writes, Except.error (ExtractErr.wrapped label e)⟩
  | Except.ok p =>
    if p = [] then ⟨o.writes, Except.error (ExtractErr.internalEmpty src)⟩
    else ⟨o.writes, Except.ok p⟩

/-- archive.go ExtractArchive: runs 7-Zip detection, then TAR, then ZIP (first
match wins), delegates to the matching adapter, and fails with the
unsupported-format error naming src when none match (writing nothing). -/
def ExtractArchive (cancelAt : Option Nat) (f : SrcFile) (dest : GoStr) : ExtractOutcome :=
  if Is7zFile f then
    finishDispatch "error extracting 7zip" f.path
      (Extract7z cancelAt f.sevenOpens f.sevenEntries f.path dest)
  else if IsTarFile f then
    finishDispatch "error extracting tar" f.path
      (ExtractTar cancelAt f.tarOpens f.tarEntries f.path dest)
  else if IsZipFile f then
    finishDispatch "error extracting zip" f.path
      (ExtractZip cancelAt f.zipOpens f.zipEntries f.path dest)
  else ⟨[], Except.error (ExtractErr.unsupported f.path)⟩

/-! Classifier lemmas. -/

theorem readBuf4_eq_zip_iff (bytes : List Nat) :
    readBuf 4 bytes = zipMagic ↔ 4 ≤ bytes.length ∧ bytes.take 4 = zipMagic := by
  match bytes with
  | [] => simp [readBuf, zipMagic]
  | [a] => simp [readBuf, zipMagic]
  | [a, b] => simp [readBuf, zipMagic]
  | [a, b, c] => simp [readBuf, zipMagic]
  | a :: b :: c :: d :: rest =>
    have h0 : 4 - (a :: b :: c :: d :: rest).length = 0 := by
      simp only [List.length_cons]
      omega
    rw [readBuf, h0]
    simp [zipMagic]

theorem readBuf6_eq_seven_iff (bytes : List Nat) :
    readBuf 6 bytes = sevenZipMagic ↔ 6 ≤ bytes.length ∧ bytes.take 6 = sevenZipMagic := by
  match bytes with
  | [] => simp [readBuf, sevenZipMagic]
  | [a] => simp [readBuf, sevenZipMagic]
  | [a, b] => simp [readBuf, sevenZipMagic]
  | [a, b, c] => simp [readBuf, sevenZipMagic]
  | [a, b, c, d] => simp [readBuf, sevenZipMagic]
  | [a, b, c, d, e] => simp [readBuf, sevenZipMagic]
  | a :: b :: c :: d :: e :: g :: rest =>
    have h0 : 6 - (a :: b :: c :: d :: e :: g :: rest).length = 0 := by
      simp only [List.length_cons]
      omega
    rw [readBuf, h0]
    simp [sevenZipMagic]

/-- archive.go IsZipFile holds exactly for an openable, readable file at least
4 bytes long whose first 4 bytes are the ZIP signature. -/
theorem IsZipFile_iff (f : SrcFile) :
    IsZipFile f = true ↔
      f.openOk = true ∧ f.readOk = true ∧ 4 ≤ f.bytes.length ∧ f.bytes.take 4 = zipMagic := by
  simp only [IsZipFile, Bool.and_eq_true, Bool.not_eq_true', beq_iff_eq,
    List.isEmpty_eq_false_iff_exists_mem]
  constructor
  · rintro ⟨⟨⟨ho, hr⟩, -⟩, hb⟩
    obtain ⟨h4, ht⟩ := (readBuf4_eq_zip_iff f.bytes).mp hb
    exact ⟨ho, hr, h4, ht⟩
  · rintro ⟨ho, hr, h4, ht⟩
    refine ⟨⟨⟨ho, hr⟩, ?_⟩, (readBuf4_eq_zip_iff f.bytes).mpr ⟨h4, ht⟩⟩
    cases hb : f.bytes with
    | nil => rw [hb] at h4; simp at h4
    | cons x xs => exact ⟨x, by simp⟩

/-- archive.go Is7zFile holds exactly for an openable, readable file at least
6 bytes long whose first 6 bytes are the 7-Zip signature. -/
theorem Is7zFile_iff (f : SrcFile) :
    Is7zFile f = true ↔
      f.openOk = true ∧ f.readOk = true ∧ 6 ≤ f.bytes.length ∧
        f.bytes.take 6 = sevenZipMagic := by
  simp only [Is7zFile, Bool.and_eq_true, Bool.not_eq_true', beq_iff_eq,
    List.isEmpty_eq_false_iff_exists_mem]
  constructor
  · rintro ⟨⟨⟨ho, hr⟩, -⟩, hb⟩
    obtain ⟨h6, ht⟩ := (readBuf6_eq_seven_iff f.bytes).mp hb
    exact ⟨ho, hr, h6, ht⟩
  · rintro ⟨ho, hr, h6, ht⟩
    refine ⟨⟨⟨ho, hr⟩, ?_⟩, (readBuf6_eq_seven_iff f.bytes).mpr ⟨h6, ht⟩⟩
    cases hb : f.bytes with
    | nil => rw [hb] at h6; simp at h6
    | cons x xs => exact ⟨x, by simp⟩

/-- archive.go IsTarFile holds exactly for an openable, seekable, readable file at
least 263 bytes long carrying "ustar" at offset 257. -/
theorem IsTarFile_iff (f : SrcFile) :
    IsTarFile f = true ↔
      f.openOk = true ∧ f.seekOk = true ∧ f.readOk = true ∧ 263 ≤ f.bytes.length ∧
        (f.bytes.drop 257).take 5 = ustarMagic := by
  simp only [IsTarFile, Bool.and_eq_true, beq_iff_eq, decide_eq_true_eq,
    List.length_drop]
  constructor
  · rintro ⟨⟨⟨⟨ho, hs⟩, hr⟩, hl⟩, hu⟩
    exact ⟨ho, hs, hr, by omega, hu⟩
  · rintro ⟨ho, hs, hr, hl, hu⟩
    exact ⟨⟨⟨⟨ho, hs⟩, hr⟩, by omega⟩, hu⟩

/-- The ZIP and 7-Zip signature checks exclude each other on every file: the
signatures differ in their first byte (0x50 vs 0x37). -/
theorem zip_seven_exclusive (f : SrcFile) : (IsZipFile f && Is7zFile f) = false := by
  cases hz : IsZipFile f with
  | false => rfl
  | true =>
    cases h7 : Is7zFile f with
    | false => rfl
    | true =>
      obtain ⟨-, -, hz4, hztake⟩ := (IsZipFile_iff f).mp hz
      obtain ⟨-, -, h76, h7take⟩ := (Is7zFile_iff f).mp h7
      cases hb : f.bytes with
      | nil => rw [hb] at hz4; simp at hz4
      | cons x xs =>
        rw [hb] at hztake h7take
        rw [show List.take 4 (x :: xs) = x :: List.take 3 xs from rfl] at hztake
        rw [show List.take 6 (x :: xs) = x :: List.take 5 xs from rfl] at h7take
        simp only [zipMagic, List.cons.injEq] at hztake
        simp only [sevenZipMagic, List.cons.injEq] at h7take
        omega

/-! Step equations for the three extraction loops. -/

theorem extractZipLoop_nil (ca : Option Nat) (cd : GoStr) (i : Nat) :
    extractZipLoop ca cd [] i = ([], none) := rfl

theorem extractZipLoop_cancelled (ca : Option Nat) (cd : GoStr) (e : ZipEntry)
    (rest : List ZipEntry) (i : Nat) (h : ctxDone ca i = true) :
    extractZipLoop ca cd (e :: rest) i = ([], some ExtractErr.cancelled) := by
  rw [extractZipLoop, if_pos h]

theorem extractZipLoop_err (ca : Option Nat) (cd : GoStr) (e : ZipEntry)
    (rest : List ZipEntry) (i : Nat) (t : GoStr) (hctx : ctxDone ca i = false)
    (hsj : safeJoin cd e.name = Except.error t) :
    extractZipLoop ca cd (e :: rest) i =
      ([], some (ExtractErr.wrapped "invalid file path" (ExtractErr.pathTraversal t))) := by
  rw [extractZipLoop, if_neg (by simp [hctx]), hsj]

theorem extractZipLoop_dir (ca : Option Nat) (cd : GoStr) (e : ZipEntry)
    (rest : List ZipEntry) (i : Nat) (fp : GoStr) (hctx : ctxDone ca i = false)
    (hsj : safeJoin cd e.name = Except.ok fp) (hd : e.isDir = true) :
    extractZipLoop ca cd (e :: rest) i =
      (FsWrite.mkDir fp :: (extractZipLoop ca cd rest (i + 1)).1,
        (extractZipLoop ca cd rest (i + 1)).2) := by
  simp [extractZipLoop, hctx, hsj, hd, createDirWrite]

theorem extractZipLoop_file (ca : Option Nat) (cd : GoStr) (e : ZipEntry)
    (rest : List ZipEntry) (i : Nat) (fp : GoStr) (hctx : ctxDone ca i = false)
    (hsj : safeJoin cd e.name = Except.ok fp) (hd : e.isDir = false) :
    extractZipLoop ca cd (e :: rest) i =
      (FsWrite.mkDir (filepathDir fp) ::
        FsWrite.file fp (e.content.take maxExtractFileSize) ::
          (extractZipLoop ca cd rest (i + 1)).1,
        (extractZipLoop ca cd rest (i + 1)).2) := by
  simp [extractZipLoop, hctx, hsj, hd, createDirWrite]

theorem extract7zLoop_nil (ca : Option Nat) (cd : GoStr) (i : Nat) :
    extract7zLoop ca cd [] i = ([], none) := rfl

theorem extract7zLoop_cancelled (ca : Option Nat) (cd : GoStr) (e : SevenZipEntry)
    (rest : List SevenZipEntry) (i : Nat) (h : ctxDone ca i = true) :
    extract7zLoop ca cd (e :: rest) i = ([], some ExtractErr.cancelled) := by
  rw [extract7zLoop, if_pos h]

theorem extract7zLoop_err (ca : Option Nat) (cd : GoStr) (e : SevenZipEntry)
    (rest : List SevenZipEntry) (i : Nat) (t : GoStr) (hctx : ctxDone ca i = false)
    (hsj : safeJoin cd e.name = Except.error t) :
    extract7zLoop ca cd (e :: rest) i = ([], some (ExtractErr.pathTraversal t)) := by
  rw [extract7zLoop, if_neg (by simp [hctx]), hsj]

theorem extract7zLoop_dir (ca : Option Nat) (cd : GoStr) (e : SevenZipEntry)
    (rest : List SevenZipEntry) (i : Nat) (fp : GoStr) (hctx : ctxDone ca i = false)
    (hsj : safeJoin cd e.name = Except.ok fp) (hd : e.isDir = true) :
    extract7zLoop ca cd (e :: rest) i =
      (FsWrite.mkDir fp :: (extract7zLoop ca cd rest (i + 1)).1,
        (extract7zLoop ca cd rest (i + 1)).2) := by
  simp [extract7zLoop, hctx, hsj, hd]

theorem extract7zLoop_file (ca : Option Nat) (cd : GoStr) (e : SevenZipEntry)
    (rest : List SevenZipEntry) (i : Nat) (fp : GoStr) (hctx : ctxDone ca i = false)
    (hsj : safeJoin cd e.name = Except.ok fp) (hd : e.isDir = false) :
    extract7zLoop ca cd (e :: rest) i =
      (FsWrite.mkDir (filepathDir fp) ::
        FsWrite.file fp (e.content.take maxExtractFileSize) ::
          (extract7zLoop ca cd rest (i + 1)).1,
        (extract7zLoop ca cd rest (i + 1)).2) := by
  simp [extract7zLoop, hctx, hsj, hd]

theorem extractTarLoop_cancelled (ca : Option Nat) (cd : GoStr) (es : List TarEntry)
    (i : Nat) (h : ctxDone ca i = true) :
    extractTarLoop ca cd es i = ([], some ExtractErr.cancelled) := by
  rw [extractTarLoop.eq_def]
  simp [h]

theorem extractTarLoop_nil (ca : Option Nat) (cd : GoStr) (i : Nat)
    (hctx : ctxDone ca i = false) :
    extractTarLoop ca cd [] i = ([], none) := by
  rw [extractTarLoop.eq_def]
  simp [hctx]

theorem extractTarLoop_err (ca : Option Nat) (cd : GoStr) (e : TarEntry)
    (rest : List TarEntry) (i : Nat) (t : GoStr) (hctx : ctxDone ca i = false)
    (hsj : safeJoin cd e.name = Except.error t) :
    extractTarLoop ca cd (e :: rest) i = ([], some (ExtractErr.pathTraversal t)) := by
  rw [extractTarLoop.eq_def]
  simp [hctx, hsj]

theorem extractTarLoop_dir (ca : Option Nat) (cd : GoStr) (e : TarEntry)
    (rest : List TarEntry) (i : Nat) (fp : GoStr) (hctx : ctxDone ca i = false)
    (hsj : safeJoin cd e.name = Except.ok fp) (hd : e.typeflag = tarTypeDir) :
    extractTarLoop ca cd (e :: rest) i =
      (FsWrite.mkDir fp :: (extractTarLoop ca cd rest (i + 1)).1,
        (extractTarLoop ca cd rest (i + 1)).2) := by
  rw [extractTarLoop.eq_def]
  simp [hctx, hsj, hd]

theorem extractTarLoop_file (ca : Option Nat) (cd : GoStr) (e : TarEntry)
    (rest : List TarEntry) (i : Nat) (fp : GoStr) (hctx : ctxDone ca i = false)
    (hsj : safeJoin cd e.name = Except.ok fp) (_hd : e.typeflag ≠ tarTypeDir)
    (hreg : e.typeflag = tarTypeReg) :
    extractTarLoop ca cd (e :: rest) i =
      (FsWrite.mkDir (filepathDir fp) ::
        FsWrite.file fp (e.content.take maxExtractFileSize) ::
          (extractTarLoop ca cd rest (i + 1)).1,
        (extractTarLoop ca cd rest (i + 1)).2) := by
  rw [extractTarLoop.eq_def]
  simp [hctx, hsj, hreg]
  decide

theorem extractTarLoop_skip (ca : Option Nat) (cd : GoStr) (e : TarEntry)
    (rest : List TarEntry) (i : Nat) (fp : GoStr) (hctx : ctxDone ca i = false)
    (hsj : safeJoin cd e.name = Except.ok fp) (hd : e.typeflag ≠ tarTypeDir)
    (hreg : e.typeflag ≠ tarTypeReg) :
    extractTarLoop ca cd (e :: rest) i = extractTarLoop ca cd rest (i + 1) := by
  rw [extractTarLoop.eq_def]
  simp [hctx, hsj, hd, hreg]

/-! Per-entry content cap: every file written by a loop carries some entry's
content truncated by the limiting reader. -/

theorem extractZipLoop_file_content (ca : Option Nat) (cd : GoStr) :
    ∀ (entries : List ZipEntry) (i : Nat) (p : GoStr) (c : List Nat),
      FsWrite.file p c ∈ (extractZipLoop ca cd entries i).1 →
      ∃ e ∈ entries, c = e.content.take maxExtractFileSize := by
  intro entries
  induction entries with
  | nil =>
    intro i p c h
    rw [extractZipLoop_nil] at h
    simp at h
  | cons e rest ih =>
    intro i p c h
    by_cases hctx : ctxDone ca i = true
    · rw [extractZipLoop_cancelled ca cd e rest i hctx] at h
      simp at h
    · have hctx' : ctxDone ca i = false := by simpa using hctx
      cases hsj : safeJoin cd e.name with
      | error t =>
        rw [extractZipLoop_err ca cd e rest i t hctx' hsj] at h
        simp at h
      | ok fp =>
        cases hd : e.isDir with
        | true =>
          rw [extractZipLoop_dir ca cd e rest i fp hctx' hsj hd] at h
          rcases List.mem_cons.mp h with h1 | h1
          · exact absurd h1 (by simp)
          · obtain ⟨e', he', hc⟩ := ih (i + 1) p c h1
            exact ⟨e', List.mem_cons_of_mem e he', hc⟩
        | false =>
          rw [extractZipLoop_file ca cd e rest i fp hctx' hsj hd] at h
          rcases List.mem_cons.mp h with h1 | h1
          · exact absurd h1 (by simp)
          · rcases List.mem_cons.mp h1 with h2 | h2
            · injection h2 with hp2 hc2
              exact ⟨e, List.mem_cons_self _ _, hc2⟩
            · obtain ⟨e', he', hc⟩ := ih (i + 1) p c h2
              exact ⟨e', List.mem_cons_of_mem e he', hc⟩

theorem extract7zLoop_file_content (ca : Option Nat) (cd : GoStr) :
    ∀ (entries : List SevenZipEntry) (i : Nat) (p : GoStr) (c : List Nat),
      FsWrite.file p c ∈ (extract7zLoop ca cd entries i).1 →
      ∃ e ∈ entries, c = e.content.take maxExtractFileSize := by
  intro entries
  induction entries with
  | nil =>
    intro i p c h
    rw [extract7zLoop_nil] at h
    simp at h
  | cons e rest ih =>
    intro i p c h
    by_cases hctx : ctxDone ca i = true
    · rw [extract7zLoop_cancelled ca cd e rest i hctx] at h
      simp at h
    · have hctx' : ctxDone ca i = false := by simpa using hctx
      cases hsj : safeJoin cd e.name with
      | error t =>
        rw [extract7zLoop_err ca cd e rest i t hctx' hsj] at h
        simp at h
      | ok fp =>
        cases hd : e.isDir with
        | true =>
          rw [extract7zLoop_dir ca cd e rest i fp hctx' hsj hd] at h
          rcases List.mem_cons.mp h with h1 | h1
          · exact absurd h1 (by simp)
          · obtain ⟨e', he', hc⟩ := ih (i + 1) p c h1
            exact ⟨e', List.mem_cons_of_mem e he', hc⟩
        | false =>
          rw [extract7zLoop_file ca cd e rest i fp hctx' hsj hd] at h
          rcases List.mem_cons.mp h with h1 | h1
          · exact absurd h1 (by simp)
          · rcases List.mem_cons.mp h1 with h2 | h2
            · injection h2 with hp2 hc2
              exact ⟨e, List.mem_cons_self _ _, hc2⟩
            · obtain ⟨e', he', hc⟩ := ih (i + 1) p c h2
              exact ⟨e', List.mem_cons_of_mem e he', hc⟩

theorem extractTarLoop_file_content (ca : Option Nat) (cd : GoStr) :
    ∀ (entries : List TarEntry) (i : Nat) (p : GoStr) (c : List Nat),
      FsWrite.file p c ∈ (extractTarLoop ca cd entries i).1 →
      ∃ e ∈ entries, c = e.content.take maxExtractFileSize := by
  intro entries
  induction entries with
  | nil =>
    intro i p c h
    by_cases hctx : ctxDone ca i = true
    · rw [extractTarLoop_cancelled ca cd [] i hctx] at h
      simp at h
    · rw [extractTarLoop_nil ca cd i (by simpa using hctx)] at h
      simp at h
  | cons e rest ih =>
    intro i p c h
    by_cases hctx : ctxDone ca i = true
    · rw [extractTarLoop_cancelled ca cd (e :: rest) i hctx] at h
      simp at h
    · have hctx' : ctxDone ca i = false := by simpa using hctx
      cases hsj : safeJoin cd e.name with
      | error t =>
        rw [extractTarLoop_err ca cd e rest i t hctx' hsj] at h
        simp at h
      | ok fp =>
        by_cases hd : e.typeflag = tarTypeDir
        · rw [extractTarLoop_dir ca cd e rest i fp hctx' hsj hd] at h
          rcases List.mem_cons.mp h with h1 | h1
          · exact absurd h1 (by simp)
          · obtain ⟨e', he', hc⟩ := ih (i + 1) p c h1
            exact ⟨e', List.mem_cons_of_mem e he', hc⟩
        · by_cases hreg : e.typeflag = tarTypeReg
          · rw [extractTarLoop_file ca cd e rest i fp hctx' hsj hd hreg] at h
            rcases List.mem_cons.mp h with h1 | h1
            · exact absurd h1 (by simp)
            · rcases List.mem_cons.mp h1 with h2 | h2
              · injection h2 with hp2 hc2
                exact ⟨e, List.mem_cons_self _ _, hc2⟩
              · obtain ⟨e', he', hc⟩ := ih (i + 1) p c h2
                exact ⟨e', List.mem_cons_of_mem e he', hc⟩
          · rw [extractTarLoop_skip ca cd e rest i fp hctx' hsj hd hreg] at h
            obtain ⟨e', he', hc⟩ := ih (i + 1) p c h
            exact ⟨e', List.mem_cons_of_mem e he', hc⟩

/-- The writes of a successful or failed ExtractZip call are the destination ensure
followed by the loop's writes. -/
theorem ExtractZip_writes (ca : Option Nat) (entries : List ZipEntry)
    (src dest : GoStr) :
    (ExtractZip ca true entries src dest).writes =
      FsWrite.mkDir dest :: (extractZipLoop ca (filepathClean dest ++ ['/']) entries 0).1 := by
  simp only [ExtractZip, Bool.true_eq_false, if_neg (by simp : ¬ (True = False))]
  cases hr2 : (extractZipLoop ca (filepathClean dest ++ ['/']) entries 0).2 with
  | none => simp [hr2, createDirWrite]
  | some e => simp [hr2, createDirWrite]

theorem Extract7z_writes (ca : Option Nat) (entries : List SevenZipEntry)
    (src dest : GoStr) :
    (Extract7z ca true entries src dest).writes =
      FsWrite.mkDir dest :: (extract7zLoop ca (filepathClean dest ++ ['/']) entries 0).1 := by
  simp only [Extract7z]
  cases hr2 : (extract7zLoop ca (filepathClean dest ++ ['/']) entries 0).2 with
  | none => simp [hr2]
  | some e => simp [hr2]

theorem ExtractTar_writes (ca : Option Nat) (entries : List TarEntry)
    (src dest : GoStr) :
    (ExtractTar ca true entries src dest).writes =
      FsWrite.mkDir dest :: (extractTarLoop ca (filepathClean dest ++ ['/']) entries 0).1 := by
  simp only [ExtractTar]
  cases hr2 : (extractTarLoop ca (filepathClean dest ++ ['/']) entries 0).2 with
  | none => simp [hr2]
  | some e => simp [hr2]

/-! Cancellation behaviour: with the signal firing from poll i+k on, a loop
performs exactly the writes of its first k entries and returns the cancellation
error. -/

theorem extractZipLoop_cancel_run (cd : GoStr) :
    ∀ (k : Nat) (entries : List ZipEntry) (i : Nat),
      k < entries.length →
      (∀ e ∈ entries.take k, ∃ q, safeJoin cd e.name = Except.ok q) →
      extractZipLoop (some (i + k)) cd entries i =
        ((extractZipLoop none cd (entries.take k) i).1, some ExtractErr.cancelled) := by
  intro k
  induction k with
  | zero =>
    intro entries i hk _
    cases entries with
    | nil => simp at hk
    | cons e rest =>
      rw [extractZipLoop_cancelled _ cd e rest i (by simp [ctxDone])]
      rfl
  | succ k ih =>
    intro entries i hk hok
    cases entries with
    | nil => simp at hk
    | cons e rest =>
      have hctx : ctxDone (some (i + (k + 1))) i = false := by
        simp only [ctxDone, decide_eq_false_iff_not]
        omega
      have hctxn : ctxDone none i = false := rfl
      obtain ⟨q, hq⟩ := hok e (by rw [List.take_succ_cons]; exact List.mem_cons_self _ _)
      have hok' : ∀ x ∈ rest.take k, ∃ q, safeJoin cd x.name = Except.ok q := by
        intro x hx
        exact hok x (by rw [List.take_succ_cons]; exact List.mem_cons_of_mem e hx)
      have hrec : extractZipLoop (some (i + (k + 1))) cd rest (i + 1) =
          ((extractZipLoop none cd (rest.take k) (i + 1)).1, some ExtractErr.cancelled) := by
        rw [show i + (k + 1) = (i + 1) + k by omega]
        exact ih rest (i + 1) (by simp only [List.length_cons] at hk; omega) hok'
      cases hd : e.isDir with
      | true =>
        rw [extractZipLoop_dir _ cd e rest i q hctx hq hd, hrec, List.take_succ_cons,
            extractZipLoop_dir none cd e (rest.take k) i q hctxn hq hd]
      | false =>
        rw [extractZipLoop_file _ cd e rest i q hctx hq hd, hrec, List.take_succ_cons,
            extractZipLoop_file none cd e (rest.take k) i q hctxn hq hd]

theorem extract7zLoop_cancel_run (cd : GoStr) :
    ∀ (k : Nat) (entries : List SevenZipEntry) (i : Nat),
      k < entries.length →
      (∀ e ∈ entries.take k, ∃ q, safeJoin cd e.name = Except.ok q) →
      extract7zLoop (some (i + k)) cd entries i =
        ((extract7zLoop none cd (entries.take k) i).1, some ExtractErr.cancelled) := by
  intro k
  induction k with
  | zero =>
    intro entries i hk _
    cases entries with
    | nil => simp at hk
    | cons e rest =>
      rw [extract7zLoop_cancelled _ cd e rest i (by simp [ctxDone])]
      rfl
  | succ k ih =>
    intro entries i hk hok
    cases entries with
    | nil => simp at hk
    | cons e rest =>
      have hctx : ctxDone (some (i + (k + 1))) i = false := by
        simp only [ctxDone, decide_eq_false_iff_not]
        omega
      have hctxn : ctxDone none i = false := rfl
      obtain ⟨q, hq⟩ := hok e (by rw [List.take_succ_cons]; exact List.mem_cons_self _ _)
      have hok' : ∀ x ∈ rest.take k, ∃ q, safeJoin cd x.name = Except.ok q := by
        intro x hx
        exact hok x (by rw [List.take_succ_cons]; exact List.mem_cons_of_mem e hx)
      have hrec : extract7zLoop (some (i + (k + 1))) cd rest (i + 1) =
          ((extract7zLoop none cd (rest.take k) (i + 1)).1, some ExtractErr.cancelled) := by
        rw [show i + (k + 1) = (i + 1) + k by omega]
        exact ih rest (i + 1) (by simp only [List.length_cons] at hk; omega) hok'
      cases hd : e.isDir with
      | true =>
        rw [extract7zLoop_dir _ cd e rest i q hctx hq hd, hrec, List.take_succ_cons,
            extract7zLoop_dir none cd e (rest.take k) i q hctxn hq hd]
      | false =>
        rw [extract7zLoop_file _ cd e rest i q hctx hq hd, hrec, List.take_succ_cons,
            extract7zLoop_file none cd e (rest.take k) i q hctxn hq hd]

theorem extractTarLoop_cancel_run (cd : GoStr) :
    ∀ (k : Nat) (entries : List TarEntry) (i : Nat),
      k < entries.length →
      (∀ e ∈ entries.take k, ∃ q, safeJoin cd e.name = Except.ok q) →
      extractTarLoop (some (i + k)) cd entries i =
        ((extractTarLoop none cd (entries.take k) i).1, some ExtractErr.cancelled) := by
  intro k
  induction k with
  | zero =>
    intro entries i hk _
    cases entries with
    | nil => simp at hk
    | cons e rest =>
      rw [extractTarLoop_cancelled _ cd (e :: rest) i (by simp [ctxDone])]
      rw [show (e :: rest).take 0 = [] from rfl,
          extractTarLoop_nil none cd i rfl]
  | succ k ih =>
    intro entries i hk hok
    cases entries with
    | nil => simp at hk
    | cons e rest =>
      have hctx : ctxDone (some (i + (k + 1))) i = false := by
        simp only [ctxDone, decide_eq_false_iff_not]
        omega
      have hctxn : ctxDone none i = false := rfl
      obtain ⟨q, hq⟩ := hok e (by rw [List.take_succ_cons]; exact List.mem_cons_self _ _)
      have hok' : ∀ x ∈ rest.take k, ∃ q, safeJoin cd x.name = Except.ok q := by
        intro x hx
        exact hok x (by rw [List.take_succ_cons]; exact List.mem_cons_of_mem e hx)
      have hrec : extractTarLoop (some (i + (k + 1))) cd rest (i + 1) =
          ((extractTarLoop none cd (rest.take k) (i + 1)).1, some ExtractErr.cancelled) := by
        rw [show i + (k + 1) = (i + 1) + k by omega]
        exact ih rest (i + 1) (by simp only [List.length_cons] at hk; omega) hok'
      by_cases hd : e.typeflag = tarTypeDir
      · rw [extractTarLoop_dir _ cd e rest i q hctx hq hd, hrec, List.take_succ_cons,
            extractTarLoop_dir none cd e (rest.take k) i q hctxn hq hd]
      · by_cases hreg : e.typeflag = tarTypeReg
        · rw [extractTarLoop_file _ cd e rest i q hctx hq hd hreg, hrec, List.take_succ_cons,
              extractTarLoop_file none cd e (rest.take k) i q hctxn hq hd hreg]
        · rw [extractTarLoop_skip _ cd e rest i q hctx hq hd hreg, hrec, List.take_succ_cons,
              extractTarLoop_skip none cd e (rest.take k) i q hctxn hq hd hreg]

/-! Uncancelled loops over safe names succeed. -/

theorem extractZipLoop_ok_run (cd : GoStr) :
    ∀ (entries : List ZipEntry) (i : Nat),
      (∀ e ∈ entries, ∃ q, safeJoin cd e.name = Except.ok q) →
      (extractZipLoop none cd entries i).2 = none := by
  intro entries
  induction entries with
  | nil =>
    intro i _
    rfl
  | cons e rest ih =>
    intro i hok
    obtain ⟨q, hq⟩ := hok e (List.mem_cons_self _ _)
    have hok' : ∀ x ∈ rest, ∃ q, safeJoin cd x.name = Except.ok q :=
      fun x hx => hok x (List.mem_cons_of_mem e hx)
    cases hd : e.isDir with
    | true =>
      rw [extractZipLoop_dir none cd e rest i q rfl hq hd]
      exact ih (i + 1) hok'
    | false =>
      rw [extractZipLoop_file none cd e rest i q rfl hq hd]
      exact ih (i + 1) hok'

theorem extract7zLoop_ok_run (cd : GoStr) :
    ∀ (entries : List SevenZipEntry) (i : Nat),
      (∀ e ∈ entries, ∃ q, safeJoin cd e.name = Except.ok q) →
      (extract7zLoop none cd entries i).2 = none := by
  intro entries
  induction entries with
  | nil =>
    intro i _
    rfl
  | cons e rest ih =>
    intro i hok
    obtain ⟨q, hq⟩ := hok e (List.mem_cons_self _ _)
    have hok' : ∀ x ∈ rest, ∃ q, safeJoin cd x.name = Except.ok q :=
      fun x hx => hok x (List.mem_cons_of_mem e hx)
    cases hd : e.isDir with
    | true =>
      rw [extract7zLoop_dir none cd e rest i q rfl hq hd]
      exact ih (i + 1) hok'
    | false =>
      rw [extract7zLoop_file none cd e rest i q rfl hq hd]
      exact ih (i + 1) hok'

theorem extractTarLoop_ok_run (cd : GoStr) :
    ∀ (entries : List TarEntry) (i : Nat),
      (∀ e ∈ entries, ∃ q, safeJoin cd e.name = Except.ok q) →
      (extractTarLoop none cd entries i).2 = none := by
  intro entries
  induction entries with
  | nil =>
    intro i _
    rfl
  | cons e rest ih =>
    intro i hok
    obtain ⟨q, hq⟩ := hok e (List.mem_cons_self _ _)
    have hok' : ∀ x ∈ rest, ∃ q, safeJoin cd x.name = Except.ok q :=
      fun x hx => hok x (List.mem_cons_of_mem e hx)
    by_cases hd : e.typeflag = tarTypeDir
    · rw [extractTarLoop_dir none cd e rest i q rfl hq hd]
      exact ih (i + 1) hok'
    · by_cases hreg : e.typeflag = tarTypeReg
      · rw [extractTarLoop_file none cd e rest i q rfl hq hd hreg]
        exact ih (i + 1) hok'
      · rw [extractTarLoop_skip none cd e rest i q rfl hq hd hreg]
        exact ih (i + 1) hok'

/-! Success paths return the derived dest/base-name path, independent of the
archive's entries. -/

theorem ExtractZip_ok_path (ca : Option Nat) (opens : Bool) (entries : List ZipEntry)
    (src dest p : GoStr) (h : (ExtractZip ca opens entries src dest).result = Except.ok p) :
    p = filepathJoin (filepathClean dest ++ ['/'])
        (filepathBase (trimSuffixGo src (filepathExt src))) := by
  by_cases ho : opens = false
  · simp [ExtractZip, ho] at h
  · simp only [ExtractZip, if_neg ho] at h
    cases hr2 : (extractZipLoop ca (filepathClean dest ++ ['/']) entries 0).2 with
    | some e =>
      rw [hr2] at h
      simp at h
    | none =>
      rw [hr2] at h
      simp only at h
      exact (Except.ok.injEq _ _ ▸ h).symm

theorem Extract7z_ok_path (ca : Option Nat) (opens : Bool) (entries : List SevenZipEntry)
    (src dest p : GoStr) (h : (Extract7z ca opens entries src dest).result = Except.ok p) :
    p = filepathJoin (filepathClean dest ++ ['/'])
        (filepathBase (trimSuffixGo src (filepathExt src))) := by
  by_cases ho : opens = false
  · simp [Extract7z, ho] at h
  · simp only [Extract7z, if_neg ho] at h
    cases hr2 : (extract7zLoop ca (filepathClean dest ++ ['/']) entries 0).2 with
    | some e =>
      rw [hr2] at h
      simp at h
    | none =>
      rw [hr2] at h
      simp only at h
      exact (Except.ok.injEq _ _ ▸ h).symm

theorem ExtractTar_ok_path (ca : Option Nat) (opens : Bool) (entries : List TarEntry)
    (src dest p : GoStr) (h : (ExtractTar ca opens entries src dest).result = Except.ok p) :
    p = filepathJoin (filepathClean dest ++ ['/'])
        (filepathBase (trimSuffixGo src (filepathExt src))) := by
  by_cases ho : opens = false
  · simp [ExtractTar, ho] at h
  · simp only [ExtractTar, if_neg ho] at h
    cases hr2 : (extractTarLoop ca (filepathClean dest ++ ['/']) entries 0).2 with
    | some e =>
      rw [hr2] at h
      simp at h
    | none =>
      rw [hr2] at h
      simp only at h
      exact (Except.ok.injEq _ _ ▸ h).symm

/-! Adapter-level cancellation: with the signal set from poll k on (k below the
entry count) the adapter returns the cancellation error and performs exactly the
writes an uncancelled run over the first k entries performs. -/

theorem ExtractZip_cancel_run (k : Nat) (entries : List ZipEntry) (src dest : GoStr)
    (hk : k < entries.length)
    (hok : ∀ e ∈ entries.take k,
      ∃ q, safeJoin (filepathClean dest ++ ['/']) e.name = Except.ok q) :
    (ExtractZip (some k) true entries src dest).result = Except.error ExtractErr.cancelled ∧
    (ExtractZip (some k) true entries src dest).writes =
      (ExtractZip none true (entries.take k) src dest).writes := by
  have hrun := extractZipLoop_cancel_run (filepathClean dest ++ ['/']) k entries 0 hk hok
  rw [Nat.zero_add] at hrun
  constructor
  · simp only [ExtractZip, Bool.true_eq_false, if_false, hrun]
  · rw [ExtractZip_writes, ExtractZip_writes, hrun]

theorem Extract7z_cancel_run (k : Nat) (entries : List SevenZipEntry) (src dest : GoStr)
    (hk : k < entries.length)
    (hok : ∀ e ∈ entries.take k,
      ∃ q, safeJoin (filepathClean dest ++ ['/']) e.name = Except.ok q) :
    (Extract7z (some k) true entries src dest).result = Except.error ExtractErr.cancelled ∧
    (Extract7z (some k) true entries src dest).writes =
      (Extract7z none true (entries.take k) src dest).writes := by
  have hrun := extract7zLoop_cancel_run (filepathClean dest ++ ['/']) k entries 0 hk hok
  rw [Nat.zero_add] at hrun
  constructor
  · simp only [Extract7z, Bool.true_eq_false, if_false, hrun]
  · rw [Extract7z_writes, Extract7z_writes, hrun]

theorem ExtractTar_cancel_run (k : Nat) (entries : List TarEntry) (src dest : GoStr)
    (hk : k < entries.length)
    (hok : ∀ e ∈ entries.take k,
      ∃ q, safeJoin (filepathClean dest ++ ['/']) e.name = Except.ok q) :
    (ExtractTar (some k) true entries src dest).result = Except.error ExtractErr.cancelled ∧
    (ExtractTar (some k) true entries src dest).writes =
      (ExtractTar none true (entries.take k) src dest).writes := by
  have hrun := extractTarLoop_cancel_run (filepathClean dest ++ ['/']) k entries 0 hk hok
  rw [Nat.zero_add] at hrun
  constructor
  · simp only [ExtractTar, Bool.true_eq_false, if_false, hrun]
  · rw [ExtractTar_writes, ExtractTar_writes, hrun]

/-- A file matching the ZIP signature never matches the 7-Zip signature. -/
theorem seven_false_of_zip (f : SrcFile) (hz : IsZipFile f = true) : Is7zFile f = false := by
  have h := zip_seven_exclusive f
  rwa [hz, Bool.true_and] at h

/-- safeJoin on the pre-cleaned destination root behaves as on the raw root: the
inner re-cleaning collapses by clean_cleanDest. -/
theorem safeJoin_cleanDest (d name : GoStr) :
    safeJoin (filepathClean d ++ ['/']) name = safeJoin d name := by
  rw [safeJoin_eq, safeJoin_eq, clean_cleanDest]

/-- A safeJoin success implies the containment check: the cleaned joined path has
the cleaned root plus separator as a prefix. -/
theorem safeJoin_ok_prefix (d n p : GoStr) (h : safeJoin d n = Except.ok p) :
    (filepathClean d ++ ['/']).isPrefixOf (filepathClean p) = true := by
  rw [safeJoin_eq] at h
  by_cases hC : (filepathClean d ++ ['/']).isPrefixOf
      (filepathClean (filepathJoin (filepathClean d ++ ['/']) n)) = true
  · rw [if_pos hC] at h
    injection h with h1
    rw [← h1]
    exact hC
  · rw [if_neg hC] at h
    cases h

/-! Every file written by a loop lands on a safeJoin-accepted path. -/

theorem extractZipLoop_file_paths (ca : Option Nat) (cd : GoStr) :
    ∀ (entries : List ZipEntry) (i : Nat) (p : GoStr) (c : List Nat),
      FsWrite.file p c ∈ (extractZipLoop ca cd entries i).1 →
      ∃ e ∈ entries, safeJoin cd e.name = Except.ok p := by
  intro entries
  induction entries with
  | nil =>
    intro i p c h
    rw [extractZipLoop_nil] at h
    simp at h
  | cons e rest ih =>
    intro i p c h
    by_cases hctx : ctxDone ca i = true
    · rw [extractZipLoop_cancelled ca cd e rest i hctx] at h
      simp at h
    · have hctx' : ctxDone ca i = false := by simpa using hctx
      cases hsj : safeJoin cd e.name with
      | error t =>
        rw [extractZipLoop_err ca cd e rest i t hctx' hsj] at h
        simp at h
      | ok fp =>
        cases hd : e.isDir with
        | true =>
          rw [extractZipLoop_dir ca cd e rest i fp hctx' hsj hd] at h
          rcases List.mem_cons.mp h with h1 | h1
          · exact absurd h1 (by simp)
          · obtain ⟨e', he', hc⟩ := ih (i + 1) p c h1
            exact ⟨e', List.mem_cons_of_mem e he', hc⟩
        | false =>
          rw [extractZipLoop_file ca cd e rest i fp hctx' hsj hd] at h
          rcases List.mem_cons.mp h with h1 | h1
          · exact absurd h1 (by simp)
          · rcases List.mem_cons.mp h1 with h2 | h2
            · injection h2 with hp2 hc2
              exact ⟨e, List.mem_cons_self _ _, hp2 ▸ hsj⟩
            · obtain ⟨e', he', hc⟩ := ih (i + 1) p c h2
              exact ⟨e', List.mem_cons_of_mem e he', hc⟩

theorem extract7zLoop_file_paths (ca : Option Nat) (cd : GoStr) :
    ∀ (entries : List SevenZipEntry) (i : Nat) (p : GoStr) (c : List Nat),
      FsWrite.file p c ∈ (extract7zLoop ca cd entries i).1 →
      ∃ e ∈ entries, safeJoin cd e.name = Except.ok p := by
  intro entries
  induction entries with
  | nil =>
    intro i p c h
    rw [extract7zLoop_nil] at h
    simp at h
  | cons e rest ih =>
    intro i p c h
    by_cases hctx : ctxDone ca i = true
    · rw [extract7zLoop_cancelled ca cd e rest i hctx] at h
      simp at h
    · have hctx' : ctxDone ca i = false := by simpa using hctx
      cases hsj : safeJoin cd e.name with
      | error t =>
        rw [extract7zLoop_err ca cd e rest i t hctx' hsj] at h
        simp at h
      | ok fp =>
        cases hd : e.isDir with
        | true =>
          rw [extract7zLoop_dir ca cd e rest i fp hctx' hsj hd] at h
          rcases List.mem_cons.mp h with h1 | h1
          · exact absurd h1 (by simp)
          · obtain ⟨e', he', hc⟩ := ih (i + 1) p c h1
            exact ⟨e', List.mem_cons_of_mem e he', hc⟩
        | false =>
          rw [extract7zLoop_file ca cd e rest i fp hctx' hsj hd] at h
          rcases List.mem_cons.mp h with h1 | h1
          · exact absurd h1 (by simp)
          · rcases List.mem_cons.mp h1 with h2 | h2
            · injection h2 with hp2 hc2
              exact ⟨e, List.mem_cons_self _ _, hp2 ▸ hsj⟩
            · obtain ⟨e', he', hc⟩ := ih (i + 1) p c h2
              exact ⟨e', List.mem_cons_of_mem e he', hc⟩

theorem extractTarLoop_file_paths (ca : Option Nat) (cd : GoStr) :
    ∀ (entries : List TarEntry) (i : Nat) (p : GoStr) (c : List Nat),
      FsWrite.file p c ∈ (extractTarLoop ca cd entries i).1 →
      ∃ e ∈ entries, safeJoin cd e.name = Except.ok p := by
  intro entries
  induction entries with
  | nil =>
    intro i p c h
    by_cases hctx : ctxDone ca i = true
    · rw [extractTarLoop_cancelled ca cd [] i hctx] at h
      simp at h
    · rw [extractTarLoop_nil ca cd i (by simpa using hctx)] at h
      simp at h
  | cons e rest ih =>
    intro i p c h
    by_cases hctx : ctxDone ca i = true
    · rw [extractTarLoop_cancelled ca cd (e :: rest) i hctx] at h
      simp at h
    · have hctx' : ctxDone ca i = false := by simpa using hctx
      cases hsj : safeJoin cd e.name with
      | error t =>
        rw [extractTarLoop_err ca cd e rest i t hctx' hsj] at h
        simp at h
      | ok fp =>
        by_cases hd : e.typeflag = tarTypeDir
        · rw [extractTarLoop_dir ca cd e rest i fp hctx' hsj hd] at h
          rcases List.mem_cons.mp h with h1 | h1
          · exact absurd h1 (by simp)
          · obtain ⟨e', he', hc⟩ := ih (i + 1) p c h1
            exact ⟨e', List.mem_cons_of_mem e he', hc⟩
        · by_cases hreg : e.typeflag = tarTypeReg
          · rw [extractTarLoop_file ca cd e rest i fp hctx' hsj hd hreg] at h
            rcases List.mem_cons.mp h with h1 | h1
            · exact absurd h1 (by simp)
            · rcases List.mem_cons.mp h1 with h2 | h2
              · injection h2 with hp2 hc2
                exact ⟨e, List.mem_cons_self _ _, hp2 ▸ hsj⟩
              · obtain ⟨e', he', hc⟩ := ih (i + 1) p c h2
                exact ⟨e', List.mem_cons_of_mem e he', hc⟩
          · rw [extractTarLoop_skip ca cd e rest i fp hctx' hsj hd hreg] at h
            obtain ⟨e', he', hc⟩ := ih (i + 1) p c h
            exact ⟨e', List.mem_cons_of_mem e he', hc⟩

/-! Adapter corollaries used by the claims. -/

theorem ExtractZip_files_contained (ca : Option Nat) (entries : List ZipEntry)
    (src dest p : GoStr) (c : List Nat)
    (h : FsWrite.file p c ∈ (ExtractZip ca true entries src dest).writes) :
    (filepathClean dest ++ ['/']).isPrefixOf (filepathClean p) = true := by
  rw [ExtractZip_writes] at h
  rcases List.mem_cons.mp h with h1 | h1
  · exact absurd h1 (by simp)
  · obtain ⟨e, -, hok⟩ := extractZipLoop_file_paths ca _ entries 0 p c h1
    rw [safeJoin_cleanDest] at hok
    exact safeJoin_ok_prefix dest e.name p hok

theorem Extract7z_files_contained (ca : Option Nat) (entries : List SevenZipEntry)
    (src dest p : GoStr) (c : List Nat)
    (h : FsWrite.file p c ∈ (Extract7z ca true entries src dest).writes) :
    (filepathClean dest ++ ['/']).isPrefixOf (filepathClean p) = true := by
  rw [Extract7z_writes] at h
  rcases List.mem_cons.mp h with h1 | h1
  · exact absurd h1 (by simp)
  · obtain ⟨e, -, hok⟩ := extract7zLoop_file_paths ca _ entries 0 p c h1
    rw [safeJoin_cleanDest] at hok
    exact safeJoin_ok_prefix dest e.name p hok

theorem ExtractTar_files_contained (ca : Option Nat) (entries : List TarEntry)
    (src dest p : GoStr) (c : List Nat)
    (h : FsWrite.file p c ∈ (ExtractTar ca true entries src dest).writes) :
    (filepathClean dest ++ ['/']).isPrefixOf (filepathClean p) = true := by
  rw [ExtractTar_writes] at h
  rcases List.mem_cons.mp h with h1 | h1
  · exact absurd h1 (by simp)
  · obtain ⟨e, -, hok⟩ := extractTarLoop_file_paths ca _ entries 0 p c h1
    rw [safeJoin_cleanDest] at hok
    exact safeJoin_ok_prefix dest e.name p hok

theorem ExtractZip_first_err (e : ZipEntry) (rest : List ZipEntry) (src dest t : GoStr)
    (hsj : safeJoin dest e.name = Except.error t) :
    (ExtractZip none true (e :: rest) src dest).result =
      Except.error (ExtractErr.wrapped "invalid file path" (ExtractErr.pathTraversal t)) := by
  have hsj' : safeJoin (filepathClean dest ++ ['/']) e.name = Except.error t := by
    rw [safeJoin_cleanDest]
    exact hsj
  have hloop := extractZipLoop_err none (filepathClean dest ++ ['/']) e rest 0 t rfl hsj'
  simp [ExtractZip, hloop]

theorem Extract7z_first_err (e : SevenZipEntry) (rest : List SevenZipEntry)
    (src dest t : GoStr) (hsj : safeJoin dest e.name = Except.error t) :
    (Extract7z none true (e :: rest) src dest).result =
      Except.error (ExtractErr.pathTraversal t) := by
  have hsj' : safeJoin (filepathClean dest ++ ['/']) e.name = Except.error t := by
    rw [safeJoin_cleanDest]
    exact hsj
  have hloop := extract7zLoop_err none (filepathClean dest ++ ['/']) e rest 0 t rfl hsj'
  simp [Extract7z, hloop]

theorem ExtractTar_first_err (e : TarEntry) (rest : List TarEntry)
    (src dest t : GoStr) (hsj : safeJoin dest e.name = Except.error t) :
    (ExtractTar none true (e :: rest) src dest).result =
      Except.error (ExtractErr.pathTraversal t) := by
  have hsj' : safeJoin (filepathClean dest ++ ['/']) e.name = Except.error t := by
    rw [safeJoin_cleanDest]
    exact hsj
  have hloop := extractTarLoop_err none (filepathClean dest ++ ['/']) e rest 0 t rfl hsj'
  simp [ExtractTar, hloop]

/-- Uncancelled adapters over safe names succeed with the derived path. -/
theorem ExtractZip_ok_run (entries : List ZipEntry) (src dest : GoStr)
    (hok : ∀ e ∈ entries, ∃ q, safeJoin (filepathClean dest ++ ['/']) e.name = Except.ok q) :
    (ExtractZip none true entries src dest).result =
      Except.ok (filepathJoin (filepathClean dest ++ ['/'])
        (filepathBase (trimSuffixGo src (filepathExt src)))) := by
  have h2 := extractZipLoop_ok_run (filepathClean dest ++ ['/']) entries 0 hok
  simp [ExtractZip, h2]

theorem Extract7z_ok_run (entries : List SevenZipEntry) (src dest : GoStr)
    (hok : ∀ e ∈ entries, ∃ q, safeJoin (filepathClean dest ++ ['/']) e.name = Except.ok q) :
    (Extract7z none true entries src dest).result =
      Except.ok (filepathJoin (filepathClean dest ++ ['/'])
        (filepathBase (trimSuffixGo src (filepathExt src)))) := by
  have h2 := extract7zLoop_ok_run (filepathClean dest ++ ['/']) entries 0 hok
  simp [Extract7z, h2]

theorem ExtractTar_ok_run (entries : List TarEntry) (src dest : GoStr)
    (hok : ∀ e ∈ entries, ∃ q, safeJoin (filepathClean dest ++ ['/']) e.name = Except.ok q) :
    (ExtractTar none true entries src dest).result =
      Except.ok (filepathJoin (filepathClean dest ++ ['/'])
        (filepathBase (trimSuffixGo src (filepathExt src)))) := by
  have h2 := extractTarLoop_ok_run (filepathClean dest ++ ['/']) entries 0 hok
  simp [ExtractTar, h2]

/-! The claims. -/

/-- C1: safeJoin succeeds and returns the joined path only when the cleaned joined
path is a strict descendant of the cleaned destination root (has the cleaned root
plus a path separator as prefix); any entry name whose join would resolve outside
the root makes safeJoin fail with the path-traversal error, every extraction
adapter writes files only to paths passing that containment check, and a failing
entry name aborts extraction of each supported format with the path-traversal
error, so no output path is produced outside the destination root. -/
theorem claim_C1_safeJoin_containment (destDir name : GoStr) :
    (∀ p, safeJoin destDir name = Except.ok p →
      p = filepathJoin (filepathClean destDir ++ ['/']) name ∧
      (filepathClean destDir ++ ['/']).isPrefixOf (filepathClean p) = true) ∧
    ((filepathClean destDir ++ ['/']).isPrefixOf
        (filepathClean (filepathJoin (filepathClean destDir ++ ['/']) name)) = false →
      safeJoin destDir name =
        Except.error (filepathJoin (filepathClean destDir ++ ['/']) name)) ∧
    (∀ (ca : Option Nat) (entries : List ZipEntry) (src p : GoStr) (c : List Nat),
      FsWrite.file p c ∈ (ExtractZip ca true entries src destDir).writes →
      (filepathClean destDir ++ ['/']).isPrefixOf (filepathClean p) = true) ∧
    (∀ (ca : Option Nat) (entries : List SevenZipEntry) (src p : GoStr) (c : List Nat),
      FsWrite.file p c ∈ (Extract7z ca true entries src destDir).writes →
      (filepathClean destDir ++ ['/']).isPrefixOf (filepathClean p) = true) ∧
    (∀ (ca : Option Nat) (entries : List TarEntry) (src p : GoStr) (c : List Nat),
      FsWrite.file p c ∈ (ExtractTar ca true entries src destDir).writes →
      (filepathClean destDir ++ ['/']).isPrefixOf (filepathClean p) = true) ∧
    (∀ (t : GoStr) (e : ZipEntry) (rest : List ZipEntry) (src : GoStr),
      safeJoin destDir e.name = Except.error t →
      (ExtractZip none true (e :: rest) src destDir).result =
        Except.error (ExtractErr.wrapped "invalid file path" (ExtractErr.pathTraversal t))) ∧
    (∀ (t : GoStr) (e : SevenZipEntry) (rest : List SevenZipEntry) (src : GoStr),
      safeJoin destDir e.name = Except.error t →
      (Extract7z none true (e :: rest) src destDir).result =
        Except.error (ExtractErr.pathTraversal t)) ∧
    (∀ (t : GoStr) (e : TarEntry) (rest : List TarEntry) (src : GoStr),
      safeJoin destDir e.name = Except.error t →
      (ExtractTar none true (e :: rest) src destDir).result =
        Except.error (ExtractErr.pathTraversal t)) := by
  refine ⟨?_, ?_, ?_, ?_, ?_, ?_, ?_, ?_⟩
  · intro p hp
    rw [safeJoin_eq] at hp
    by_cases hC : (filepathClean destDir ++ ['/']).isPrefixOf
        (filepathClean (filepathJoin (filepathClean destDir ++ ['/']) name)) = true
    · rw [if_pos hC] at hp
      injection hp with h1
      exact ⟨h1.symm, h1 ▸ hC⟩
    · rw [if_neg hC] at hp
      cases hp
  · intro hC
    rw [safeJoin_eq, if_neg (by simp [hC])]
  · intro ca entries src p c h
    exact ExtractZip_files_contained ca entries src destDir p c h
  · intro ca entries src p c h
    exact Extract7z_files_contained ca entries src destDir p c h
  · intro ca entries src p c h
    exact ExtractTar_files_contained ca entries src destDir p c h
  · intro t e rest src h
    exact ExtractZip_first_err e rest src destDir t h
  · intro t e rest src h
    exact Extract7z_first_err e rest src destDir t h
  · intro t e rest src h
    exact ExtractTar_first_err e rest src destDir t h

/-- C1 witness: a traversal name is rejected with the path-traversal error at a
concrete root, by the claim's theorem applied at /dest and ../evil. -/
theorem claim_C1_witness :
    safeJoin "/dest".toList "../evil".toList = Except.error "/evil".toList :=
  (claim_C1_safeJoin_containment "/dest".toList "../evil".toList).2.1 rfl

/-- C10: an entry name that joins and cleans to the destination root itself — the
empty name, ".", or "./" — is rejected by safeJoin with the path-traversal error
(containment requires a strict descendant), and a tar archive whose first entry is
named "./" fails extraction as a whole with that error, whatever its type flag. -/
theorem claim_C10_root_entry_rejected (d : GoStr) :
    safeJoin d [] = Except.error (filepathClean d) ∧
    safeJoin d ['.'] = Except.error (filepathClean d) ∧
    safeJoin d ['.', '/'] = Except.error (filepathClean d) ∧
    (∀ (tf : Char) (mode : Int) (content : List Nat) (rest : List TarEntry) (src : GoStr),
      (ExtractTar none true
          (({ name := ['.', '/'], typeflag := tf, mode := mode, content := content } :
            TarEntry) :: rest) src d).result =
        Except.error (ExtractErr.pathTraversal (filepathClean d))) := by
  refine ⟨safeJoin_root_error d [] (join_root_empty d),
    safeJoin_root_error d ['.'] (join_root_dot d),
    safeJoin_root_error d ['.', '/'] (join_root_dotSlash d), ?_⟩
  intro tf mode content rest src
  exact ExtractTar_first_err _ rest src d (filepathClean d)
    (safeJoin_root_error d ['.', '/'] (join_root_dotSlash d))

/-- C10 witness: the three root-collapsing names rejected at a concrete root. -/
theorem claim_C10_witness :
    safeJoin "/data/out".toList "./".toList = Except.error "/data/out".toList :=
  (claim_C10_root_entry_rejected "/data/out".toList).2.2.1

/-- A crafted file carrying the ZIP signature at offset 0 and "ustar" at offset
257 (263 bytes in total): both IsZipFile and IsTarFile accept it. -/
def zipUstarFile : SrcFile :=
  { path := "weird.zip".toList, openOk := true, readOk := true, seekOk := true,
    bytes := zipMagic ++ List.replicate 253 0 ++ ustarMagic ++ [0],
    zipOpens := true, zipEntries := [], sevenOpens := false, sevenEntries := [],
    tarOpens := false, tarEntries := [] }

set_option maxRecDepth 4000 in
/-- C3 counterexample: the three signature checks are not pairwise exclusive — a
file can satisfy IsZipFile and IsTarFile at once, since the ZIP magic sits at
offset 0 and the tar magic at offset 257. -/
theorem claim_C3_counterexample :
    IsZipFile zipUstarFile = true ∧ IsTarFile zipUstarFile = true := by
  constructor
  · rfl
  · rfl

/-- C3 as amended: the ZIP and 7-Zip signature checks are mutually exclusive on
every input file (their signatures differ at the first byte), but the TAR check is
independent and can hold together with either of them; the dispatcher's fixed
order resolves such overlaps. -/
theorem claim_C3_zip_seven_exclusive (f : SrcFile) :
    (IsZipFile f && Is7zFile f) = false :=
  zip_seven_exclusive f

/-- A realistic gzip-compressed tar file: gzip magic 0x1f 0x8b at offset 0,
deflate payload, far shorter than the 263 bytes the tar check needs, so none of
the three signature checks can match even though ExtractTar itself would unpack it
through its gzip reader. -/
def tarGzFile : SrcFile :=
  { path := "package.tar.gz".toList, openOk := true, readOk := true, seekOk := true,
    bytes := [0x1f, 0x8b, 0x08, 0, 0, 0, 0, 0, 0, 0x03] ++ List.replicate 30 0x42,
    zipOpens := false, zipEntries := [], sevenOpens := false, sevenEntries := [],
    tarOpens := true,
    tarEntries := [⟨"package/file.txt".toList, '0', 420, [1, 2, 3]⟩] }

/-- C2: evaluating the dispatcher at a well-formed gzip-compressed tar file. The
file ends in .gz (the suffix ExtractTar keys its gzip reader on) and its tar
stream parses, yet ExtractArchive classifies it as unsupported and extracts
nothing, because IsTarFile inspects the compressed bytes at offset 257; the claim
that every well-formed archive of the four formats is classified and extracted is
violated by the code for gzip-compressed TAR. -/
theorem claim_C2_targz_unsupported :
    goHasSuffix tarGzFile.path ".gz".toList = true ∧
    ExtractArchive none tarGzFile "dest".toList =
      ⟨[], Except.error (ExtractErr.unsupported "package.tar.gz".toList)⟩ := by
  constructor
  · rfl
  · rfl

/-- C4: ExtractArchive runs the checks in the fixed order 7-Zip, TAR, ZIP,
delegates to the adapter of the first matching check, and on no match returns the
unsupported-format error naming the source path with no filesystem write. -/
theorem claim_C4_dispatch_order (ca : Option Nat) (f : SrcFile) (dest : GoStr) :
    (Is7zFile f = true →
      ExtractArchive ca f dest = finishDispatch "error extracting 7zip" f.path
        (Extract7z ca f.sevenOpens f.sevenEntries f.path dest)) ∧
    (Is7zFile f = false → IsTarFile f = true →
      ExtractArchive ca f dest = finishDispatch "error extracting tar" f.path
        (ExtractTar ca f.tarOpens f.tarEntries f.path dest)) ∧
    (Is7zFile f = false → IsTarFile f = false → IsZipFile f = true →
      ExtractArchive ca f dest = finishDispatch "error extracting zip" f.path
        (ExtractZip ca f.zipOpens f.zipEntries f.path dest)) ∧
    (Is7zFile f = false → IsTarFile f = false → IsZipFile f = false →
      ExtractArchive ca f dest = ⟨[], Except.error (ExtractErr.unsupported f.path)⟩) := by
  refine ⟨?_, ?_, ?_, ?_⟩
  · intro h7
    simp [ExtractArchive, h7]
  · intro h7 ht
    simp [ExtractArchive, h7, ht]
  · intro h7 ht hz
    simp [ExtractArchive, h7, ht, hz]
  · intro h7 ht hz
    simp [ExtractArchive, h7, ht, hz]

/-- C4 witness: a file matching no signature is rejected as unsupported with no
writes, via the claim's theorem at a concrete four-byte file. -/
theorem claim_C4_witness :
    ExtractArchive none
      { path := "x.bin".toList, openOk := true, readOk := true, seekOk := true,
        bytes := [0, 1, 2, 3], zipOpens := false, zipEntries := [],
        sevenOpens := false, sevenEntries := [], tarOpens := false, tarEntries := [] }
      "d".toList =
      ⟨[], Except.error (ExtractErr.unsupported "x.bin".toList)⟩ :=
  (claim_C4_dispatch_order none _ "d".toList).2.2.2 rfl rfl rfl

/-- The two cap facts for a content list: truncation to exactly the cap when the
content reaches it, and a full copy when it does not. -/
theorem take_cap_props (l : List Nat) :
    (maxExtractFileSize ≤ l.length →
      (l.take maxExtractFileSize).length = maxExtractFileSize) ∧
    (l.length ≤ maxExtractFileSize → l.take maxExtractFileSize = l) := by
  constructor
  · intro hle
    rw [List.length_take, Nat.min_eq_left hle]
  · intro hge
    exact List.take_of_length_le hge

/-- C5: the per-file cap is exactly 5 GiB; every file any adapter writes carries
some entry's content passed through the limiting reader — truncated to exactly the
cap when the entry's content reaches it and copied in full below it — and
extraction of safe-named entries succeeds regardless of entry sizes, so truncation
is never reported as an error. -/
theorem claim_C5_size_cap :
    maxExtractFileSize = 5 * 2 ^ 30 ∧
    (∀ (ca : Option Nat) (entries : List ZipEntry) (src dest p : GoStr) (c : List Nat),
      FsWrite.file p c ∈ (ExtractZip ca true entries src dest).writes →
      ∃ e ∈ entries, c = e.content.take maxExtractFileSize ∧
        (maxExtractFileSize ≤ e.content.length → c.length = maxExtractFileSize) ∧
        (e.content.length ≤ maxExtractFileSize → c = e.content)) ∧
    (∀ (ca : Option Nat) (entries : List SevenZipEntry) (src dest p : GoStr) (c : List Nat),
      FsWrite.file p c ∈ (Extract7z ca true entries src dest).writes →
      ∃ e ∈ entries, c = e.content.take maxExtractFileSize ∧
        (maxExtractFileSize ≤ e.content.length → c.length = maxExtractFileSize) ∧
        (e.content.length ≤ maxExtractFileSize → c = e.content)) ∧
    (∀ (ca : Option Nat) (entries : List TarEntry) (src dest p : GoStr) (c : List Nat),
      FsWrite.file p c ∈ (ExtractTar ca true entries src dest).writes →
      ∃ e ∈ entries, c = e.content.take maxExtractFileSize ∧
        (maxExtractFileSize ≤ e.content.length → c.length = maxExtractFileSize) ∧
        (e.content.length ≤ maxExtractFileSize → c = e.content)) ∧
    (∀ (entries : List ZipEntry) (src dest : GoStr),
      (∀ e ∈ entries, ∃ q, safeJoin (filepathClean dest ++ ['/']) e.name = Except.ok q) →
      ∃ p, (ExtractZip none true entries src dest).result = Except.ok p) ∧
    (∀ (entries : List SevenZipEntry) (src dest : GoStr),
      (∀ e ∈ entries, ∃ q, safeJoin (filepathClean dest ++ ['/']) e.name = Except.ok q) →
      ∃ p, (Extract7z none true entries src dest).result = Except.ok p) ∧
    (∀ (entries : List TarEntry) (src dest : GoStr),
      (∀ e ∈ entries, ∃ q, safeJoin (filepathClean dest ++ ['/']) e.name = Except.ok q) →
      ∃ p, (ExtractTar none true entries src dest).result = Except.ok p) := by
  refine ⟨by decide, ?_, ?_, ?_, ?_, ?_, ?_⟩
  · intro ca entries src dest p c h
    rw [ExtractZip_writes] at h
    rcases List.mem_cons.mp h with h1 | h1
    · exact absurd h1 (by simp)
    · obtain ⟨e, he, hc⟩ := extractZipLoop_file_content ca _ entries 0 p c h1
      exact ⟨e, he, hc, hc ▸ (take_cap_props e.content).1, hc ▸ (take_cap_props e.content).2⟩
  · intro ca entries src dest p c h
    rw [Extract7z_writes] at h
    rcases List.mem_cons.mp h with h1 | h1
    · exact absurd h1 (by simp)
    · obtain ⟨e, he, hc⟩ := extract7zLoop_file_content ca _ entries 0 p c h1
      exact ⟨e, he, hc, hc ▸ (take_cap_props e.content).1, hc ▸ (take_cap_props e.content).2⟩
  · intro ca entries src dest p c h
    rw [ExtractTar_writes] at h
    rcases List.mem_cons.mp h with h1 | h1
    · exact absurd h1 (by simp)
    · obtain ⟨e, he, hc⟩ := extractTarLoop_file_content ca _ entries 0 p c h1
      exact ⟨e, he, hc, hc ▸ (take_cap_props e.content).1, hc ▸ (take_cap_props e.content).2⟩
  · intro entries src dest hok
    exact ⟨_, ExtractZip_ok_run entries src dest hok⟩
  · intro entries src dest hok
    exact ⟨_, Extract7z_ok_run entries src dest hok⟩
  · intro entries src dest hok
    exact ⟨_, ExtractTar_ok_run entries src dest hok⟩

/-- C5 witness: the cap facts instantiated through an actual ZIP extraction of a
small file, by the claim's theorem at a concrete archive. -/
theorem claim_C5_witness :
    ∃ e ∈ [({ name := ['a'], isDir := false, content := [1, 2, 3] } : ZipEntry)],
      ([1, 2, 3] : List Nat) = e.content.take maxExtractFileSize ∧
        (maxExtractFileSize ≤ e.content.length →
          ([1, 2, 3] : List Nat).length = maxExtractFileSize) ∧
        (e.content.length ≤ maxExtractFileSize → ([1, 2, 3] : List Nat) = e.content) :=
  claim_C5_size_cap.2.1 none [{ name := ['a'], isDir := false, content := [1, 2, 3] }]
    "s.zip".toList "/d".toList "/d/a".toList [1, 2, 3] (by decide)

/-- C6: each classifier returns true only when the header bytes match its
signature, and false — never an error — on every failure path: an unopenable
file, a failed read or seek, and a file shorter than the required header length
(for TAR, too short to reach offset 257 + 6). -/
theorem claim_C6_classifier_totality (f : SrcFile) :
    (IsZipFile f = true ↔
      f.openOk = true ∧ f.readOk = true ∧ 4 ≤ f.bytes.length ∧
        f.bytes.take 4 = zipMagic) ∧
    (Is7zFile f = true ↔
      f.openOk = true ∧ f.readOk = true ∧ 6 ≤ f.bytes.length ∧
        f.bytes.take 6 = sevenZipMagic) ∧
    (IsTarFile f = true ↔
      f.openOk = true ∧ f.seekOk = true ∧ f.readOk = true ∧ 263 ≤ f.bytes.length ∧
        (f.bytes.drop 257).take 5 = ustarMagic) :=
  ⟨IsZipFile_iff f, Is7zFile_iff f, IsTarFile_iff f⟩

/-- A file whose two bytes are a truncated ZIP signature. -/
def truncFile : SrcFile :=
  { path := "t.zip".toList, openOk := true, readOk := true, seekOk := true,
    bytes := [0x50, 0x4B], zipOpens := false, zipEntries := [], sevenOpens := false,
    sevenEntries := [], tarOpens := false, tarEntries := [] }

/-- C6 witness: a two-byte truncated header classifies as not-ZIP, by the claim's
theorem at that concrete file. -/
theorem claim_C6_witness : IsZipFile truncFile = false := by
  cases hb : IsZipFile truncFile with
  | false => rfl
  | true =>
    obtain ⟨-, -, h4, -⟩ := (claim_C6_classifier_totality truncFile).1.mp hb
    exact absurd h4 (by decide)

/-- C7: in every adapter the cancellation signal is polled before each entry;
once it fires before entry k's processing begins, the adapter returns the
cancellation error and its writes are exactly those an uncancelled run over the
first k entries performs — later entries are never written and earlier files stay
in place (the model records no deletions, so preserved writes are untouched). -/
theorem claim_C7_cancellation :
    (∀ (k : Nat) (entries : List ZipEntry) (src dest : GoStr),
      k < entries.length →
      (∀ e ∈ entries.take k,
        ∃ q, safeJoin (filepathClean dest ++ ['/']) e.name = Except.ok q) →
      (ExtractZip (some k) true entries src dest).result =
        Except.error ExtractErr.cancelled ∧
      (ExtractZip (some k) true entries src dest).writes =
        (ExtractZip none true (entries.take k) src dest).writes) ∧
    (∀ (k : Nat) (entries : List SevenZipEntry) (src dest : GoStr),
      k < entries.length →
      (∀ e ∈ entries.take k,
        ∃ q, safeJoin (filepathClean dest ++ ['/']) e.name = Except.ok q) →
      (Extract7z (some k) true entries src dest).result =
        Except.error ExtractErr.cancelled ∧
      (Extract7z (some k) true entries src dest).writes =
        (Extract7z none true (entries.take k) src dest).writes) ∧
    (∀ (k : Nat) (entries : List TarEntry) (src dest : GoStr),
      k < entries.length →
      (∀ e ∈ entries.take k,
        ∃ q, safeJoin (filepathClean dest ++ ['/']) e.name = Except.ok q) →
      (ExtractTar (some k) true entries src dest).result =
        Except.error ExtractErr.cancelled ∧
      (ExtractTar (some k) true entries src dest).writes =
        (ExtractTar none true (entries.take k) src dest).writes) :=
  ⟨fun k es src dest hk hok => ExtractZip_cancel_run k es src dest hk hok,
    fun k es src dest hk hok => Extract7z_cancel_run k es src dest hk hok,
    fun k es src dest hk hok => ExtractTar_cancel_run k es src dest hk hok⟩

/-- C7 witness: cancelling before the second entry of a two-entry ZIP archive, by
the claim's theorem at a concrete archive. -/
theorem claim_C7_witness :
    (ExtractZip (some 1) true
        [{ name := ['a'], isDir := false, content := [1] },
          { name := ['b'], isDir := false, content := [2] }]
        "p.zip".toList "/d".toList).result = Except.error ExtractErr.cancelled ∧
    (ExtractZip (some 1) true
        [{ name := ['a'], isDir := false, content := [1] },
          { name := ['b'], isDir := false, content := [2] }]
        "p.zip".toList "/d".toList).writes =
      (ExtractZip none true
        ([{ name := ['a'], isDir := false, content := [1] },
          { name := ['b'], isDir := false, content := [2] }].take 1)
        "p.zip".toList "/d".toList).writes :=
  claim_C7_cancellation.1 1
    [{ name := ['a'], isDir := false, content := [1] },
      { name := ['b'], isDir := false, content := [2] }]
    "p.zip".toList "/d".toList (by decide)
    (by
      intro e he
      simp only [List.take_succ_cons, List.take_zero, List.mem_singleton] at he
      subst he
      exact ⟨"/d/a".toList, rfl⟩)

/-- C8: on success every adapter returns the same derived path — the cleaned
destination joined with the source file's base name with its final extension
stripped — a value independent of the archive's entries. -/
theorem claim_C8_derived_path :
    (∀ (ca : Option Nat) (opens : Bool) (entries : List ZipEntry) (src dest p : GoStr),
      (ExtractZip ca opens entries src dest).result = Except.ok p →
      p = filepathJoin (filepathClean dest ++ ['/'])
          (filepathBase (trimSuffixGo src (filepathExt src)))) ∧
    (∀ (ca : Option Nat) (opens : Bool) (entries : List SevenZipEntry) (src dest p : GoStr),
      (Extract7z ca opens entries src dest).result = Except.ok p →
      p = filepathJoin (filepathClean dest ++ ['/'])
          (filepathBase (trimSuffixGo src (filepathExt src)))) ∧
    (∀ (ca : Option Nat) (opens : Bool) (entries : List TarEntry) (src dest p : GoStr),
      (ExtractTar ca opens entries src dest).result = Except.ok p →
      p = filepathJoin (filepathClean dest ++ ['/'])
          (filepathBase (trimSuffixGo src (filepathExt src)))) :=
  ⟨fun ca opens es src dest p h => ExtractZip_ok_path ca opens es src dest p h,
    fun ca opens es src dest p h => Extract7z_ok_path ca opens es src dest p h,
    fun ca opens es src dest p h => ExtractTar_ok_path ca opens es src dest p h⟩

/-- C8 witness: the empty ZIP archive pkg.zip extracted into /out yields exactly
/out/pkg, by the claim's theorem at that concrete call. -/
theorem claim_C8_witness :
    "/out/pkg".toList = filepathJoin (filepathClean "/out".toList ++ ['/'])
      (filepathBase (trimSuffixGo "pkg.zip".toList (filepathExt "pkg.zip".toList))) :=
  claim_C8_derived_path.1 none true [] "pkg.zip".toList "/out".toList "/out/pkg".toList rfl

/-- A crafted file named like an Office document that carries the ZIP signature at
offset 0 but also "ustar" at offset 257. -/
def docxUstarFile : SrcFile :=
  { path := "report.docx".toList, openOk := true, readOk := true, seekOk := true,
    bytes := zipMagic ++ List.replicate 253 0 ++ ustarMagic ++ [0],
    zipOpens := true, zipEntries := [{ name := ['x'], isDir := false, content := [7] }],
    sevenOpens := false, sevenEntries := [], tarOpens := true, tarEntries := [] }

set_option maxRecDepth 8000 in
/-- C9 counterexample: a file with an Office extension and the ZIP magic bytes is
not always delegated to the ZIP adapter — when it also carries "ustar" at offset
257 the dispatcher's earlier TAR check wins, so the universally quantified claim
fails at this input. -/
theorem claim_C9_counterexample :
    IsZipFile docxUstarFile = true ∧
    IsActualArchive docxUstarFile.path = false ∧
    ExtractArchive none docxUstarFile "/d".toList ≠
      finishDispatch "error extracting zip" docxUstarFile.path
        (ExtractZip none docxUstarFile.zipOpens docxUstarFile.zipEntries
          docxUstarFile.path "/d".toList) := by
  refine ⟨rfl, rfl, ?_⟩
  intro h
  exact absurd (congrArg (fun o => o.writes.length) h) (by decide)

set_option linter.unusedVariables false in
/-- C9 as amended: ExtractArchive never consults IsActualArchive — a file with the
ZIP signature that does not match the TAR check is delegated to the ZIP adapter
and extracted even when its Office/OpenDocument/JAR extension makes
IsActualArchive reject it; the policy filter acts only when a caller invokes it
explicitly. -/
theorem claim_C9_no_policy_filter (ca : Option Nat) (f : SrcFile) (dest : GoStr)
    (hz : IsZipFile f = true) (ht : IsTarFile f = false)
    (hoffice : IsActualArchive f.path = false) :
    ExtractArchive ca f dest =
      finishDispatch "error extracting zip" f.path
        (ExtractZip ca f.zipOpens f.zipEntries f.path dest) := by
  have h7 := seven_false_of_zip f hz
  simp [ExtractArchive, h7, ht, hz]

/-- A genuine Office document: ZIP magic bytes, .docx extension, 4 bytes long. -/
def docxFile : SrcFile :=
  { path := "report.docx".toList, openOk := true, readOk := true, seekOk := true,
    bytes := zipMagic, zipOpens := true,
    zipEntries := [{ name := ['x'], isDir := false, content := [7] }],
    sevenOpens := false, sevenEntries := [], tarOpens := false, tarEntries := [] }

/-- C9 witness: a ZIP-signed .docx is dispatched to the ZIP adapter although
IsActualArchive rejects it, by the amended theorem at that concrete file. -/
theorem claim_C9_witness :
    ExtractArchive none docxFile "/d".toList =
      finishDispatch "error extracting zip" docxFile.path
        (ExtractZip none docxFile.zipOpens docxFile.zipEntries docxFile.path "/d".toList) :=
  claim_C9_no_policy_filter none docxFile "/d".toList rfl rfl rfl
